import Mathlib

/-!
# LegionPlus export pipeline

A shallow embedding of `src/Legion/ExportManager.cpp` (the export orchestrator, its worker
loop, the configuration fallback and the asset list manifest) and of the animation track
decoder declared in `src/Legion/MdlLib.h`.

The worker lambda handed to `Threading::ParallelTask` is a small-step machine: every access
to the shared cursor `AssetIndex`, every exporter call, every status poll and every
mutex-guarded progress update is one atomic step of one worker, and a schedule decides
which worker moves next. The 32-bit cursor wraps as in the source, and the progress
percentage is computed in single precision as in the source.

The definitions come first, the theorems after them.
-/

namespace ExportManager

/-! ## Data model -/

/-- A work item of a batch: the hash that finds the asset in its archive and the stable
index handed to the status callback. -/
structure ExportAsset where
  AssetHash : Nat
  AssetIndex : Nat
deriving DecidableEq, Repr, Inhabited

/-- Modelled from the spec: the enumeration `RpakAssetType` is declared in `RpakLib.h`, which
is not among the sources. The seven enumerators that the switch of `ExportRpakAssets` names are
kept apart (C++ rejects a switch with two equal case labels); every other value of the 32-bit
tag is `Other tag`. -/
inductive RpakAssetType where
  | Texture
  | UIIA
  | Material
  | Model
  | AnimationRig
  | DataTable
  | Subtitles
  | Other (tag : Nat)
deriving DecidableEq, Repr

/-- One call into a per-kind exporter, with the asset (by hash) and the output directories it
was given. `ExtractAsset` is the audio exporter of `ExportMilesAssets`. -/
inductive ExporterCall where
  | ExportTexture (asset : Nat) (path : String) (flag : Bool)
  | ExportUIIA (asset : Nat) (path : String)
  | ExportMaterial (asset : Nat) (path : String)
  | ExportModel (asset : Nat) (modelPath animPath : String)
  | ExportAnimationRig (asset : Nat) (path : String)
  | ExportDataTable (asset : Nat) (path : String)
  | ExportSubtitles (asset : Nat) (path : String)
  | ExtractAsset (asset : Nat) (path : String)
deriving DecidableEq, Repr

/-- What a run does, in the order it happens. `claim` is the fetch-and-increment
`AssetToConvert = AssetIndex++`; `dispatch` is the exporter call of the loop body (`none`
when the switch matches no case); `status` is the call `StatusCallback(Asset.AssetIndex, ..)`
with the answer it gave; `update` is the mutex-guarded block; `progress` is a call
`ProgressCallback(percent, .., final)`. -/
inductive Event where
  | claim (worker index : Nat)
  | dispatch (worker index : Nat) (call : Option ExporterCall)
  | status (worker index stable : Nat) (cancel : Bool)
  | update (worker index newProgress : Nat)
  | progress (percent : Nat) (final : Bool)
deriving DecidableEq, Repr

/-! ## Single precision arithmetic of the progress computation

`(uint32_t)(((float)AssetToConvert / (float)ExportAssets.Count()) * 100.f)` is evaluated in
IEEE-754 binary32 with round-to-nearest-even. A non-negative finite value is kept as an exact
fraction `(numerator, denominator)`. All values that occur lie between `2^-32` and `2^32 * 100`,
far inside the normal exponent range, so only the 24-bit significand is modelled. -/

/-- Nearest integer to `n / d`, ties to the even one. -/
def roundNearestEven (n d : Nat) : Nat :=
  let q := n / d
  let r := n % d
  if 2 * r < d then q
  else if d < 2 * r then q + 1
  else if q % 2 = 0 then q else q + 1

/-- Halving `n` until it is below 2, counting the halvings; at most `fuel` of them. -/
def ilog2Aux : Nat → Nat → Nat
  | 0, _ => 0
  | fuel + 1, n => if n < 2 then 0 else ilog2Aux fuel (n / 2) + 1

/-- The position of the leading binary digit of `n`: the largest `e` with `2 ^ e ≤ n`
(and 0 for `n = 0`). -/
def ilog2 (n : Nat) : Nat := ilog2Aux n n

/-- The binary32 value nearest to the rational `n / d`, as a fraction: the quotient is scaled
into `[2^23, 2^24)`, rounded to an integer significand and scaled back. -/
def f32 (n d : Nat) : Nat × Nat :=
  let up := 25 + ilog2 d
  let a := n * 2 ^ up
  let sh := ilog2 (a / d) - 23
  (roundNearestEven a (d * 2 ^ sh) * 2 ^ sh, 2 ^ up)

/-- The conversion `(float)n` of a 32-bit unsigned integer. -/
def f32OfNat (n : Nat) : Nat × Nat := f32 n 1

/-- Single precision division. -/
def f32Div (x y : Nat × Nat) : Nat × Nat := f32 (x.1 * y.2) (x.2 * y.1)

/-- Single precision multiplication. -/
def f32Mul (x y : Nat × Nat) : Nat × Nat := f32 (x.1 * y.1) (x.2 * y.2)

/-- The conversion `(uint32_t)x`: truncation towards zero. -/
def f32ToUInt32 (x : Nat × Nat) : Nat := (x.1 / x.2) % 2 ^ 32

/-- The value `NewProgress` of lines 121 and 199:
`(uint32_t)(((float)AssetToConvert / (float)ExportAssets.Count()) * 100.f)`. -/
def NewProgress (AssetToConvert Count : Nat) : Nat :=
  f32ToUInt32 (f32Mul (f32Div (f32OfNat AssetToConvert) (f32OfNat Count)) (f32OfNat 100))

/-! ## The worker loop -/

/-- Where a worker stands in the lambda of lines 101-130 and 154-210. -/
inductive Pc where
  /-- About to evaluate `AssetIndex < ExportAssets.Count() && !IsCancel`. -/
  | loopCond
  /-- About to run `AssetToConvert = AssetIndex++` and the range test after it. -/
  | fetchAdd
  /-- About to call the exporter for the claimed item. -/
  | dispatch
  /-- About to call `StatusCallback`. -/
  | poll
  /-- About to enter the mutex-guarded progress block. -/
  | update
  /-- Left the loop. -/
  | done
deriving DecidableEq, Repr

/-- The locals of one worker thread. -/
structure Worker where
  pc : Pc
  IsCancel : Bool
  AssetToConvert : Nat
deriving DecidableEq, Repr

/-- The variables the workers share, and the record of what happened so far. -/
structure State where
  AssetIndex : Nat
  CurrentProgress : Nat
  workers : List Worker
  trace : List Event
deriving DecidableEq, Repr

/-- What the lambda captures: the batch, the exporter call of the loop body, and the status
callback. The callback is an arbitrary host function; it may answer from everything that
happened before the call and from the stable index it is asked about. -/
structure Task where
  ExportAssets : List ExportAsset
  body : ExportAsset → Option ExporterCall
  StatusCallback : List Event → Nat → Bool

/-- One atomic step of worker `w`. A worker that left the loop (or a number that names no
worker) leaves the state alone. -/
def stepWorker (t : Task) (w : Nat) (s : State) : State :=
  match s.workers[w]? with
  | none => s
  | some wk =>
    match wk.pc with
    | Pc.loopCond =>
      if s.AssetIndex < t.ExportAssets.length ∧ wk.IsCancel = false then
        { s with workers := s.workers.set w { wk with pc := Pc.fetchAdd } }
      else
        { s with workers := s.workers.set w { wk with pc := Pc.done } }
    | Pc.fetchAdd =>
      { s with
        AssetIndex := (s.AssetIndex + 1) % 2 ^ 32
        workers := s.workers.set w
          { wk with
            AssetToConvert := s.AssetIndex
            pc := if s.AssetIndex ≥ t.ExportAssets.length then Pc.loopCond else Pc.dispatch }
        trace := s.trace ++ [Event.claim w s.AssetIndex] }
    | Pc.dispatch =>
      { s with
        workers := s.workers.set w { wk with pc := Pc.poll }
        trace := s.trace ++
          [Event.dispatch w wk.AssetToConvert
            (t.body (t.ExportAssets[wk.AssetToConvert]?.getD default))] }
    | Pc.poll =>
      let stable := (t.ExportAssets[wk.AssetToConvert]?.getD default).AssetIndex
      let cancel := t.StatusCallback s.trace stable
      { s with
        workers := s.workers.set w { wk with IsCancel := cancel, pc := Pc.update }
        trace := s.trace ++ [Event.status w wk.AssetToConvert stable cancel] }
    | Pc.update =>
      let np := NewProgress wk.AssetToConvert t.ExportAssets.length
      if np > s.CurrentProgress then
        { s with
          CurrentProgress := np
          workers := s.workers.set w { wk with pc := Pc.loopCond }
          trace := s.trace ++ [Event.update w wk.AssetToConvert np, Event.progress np false] }
      else
        { s with
          workers := s.workers.set w { wk with pc := Pc.loopCond }
          trace := s.trace ++ [Event.update w wk.AssetToConvert np] }
    | Pc.done => s

/-- Worker `w` exists and is still inside the lambda. -/
def active (s : State) (w : Nat) : Bool :=
  match s.workers[w]? with
  | some wk => decide (wk.pc ≠ Pc.done)
  | none => false

/-- Every worker has left the lambda. -/
def allDone (s : State) : Bool := s.workers.all (fun wk => decide (wk.pc = Pc.done))

/-- The worker that moves next: the one the schedule names when it can move, else the first
one that can; `none` when no worker can move. -/
def pick (s : State) (c : Nat) : Option Nat :=
  if active s c then some c else (List.range s.workers.length).find? (active s)

/-- The state in which `ParallelTask` starts `n` threads on the lambda:
`AssetIndex = 0`, `CurrentProgress = 0`, every worker before its first loop test with
`IsCancel = false`. -/
def initState (n : Nat) : State :=
  { AssetIndex := 0
    CurrentProgress := 0
    workers := List.replicate n { pc := Pc.loopCond, IsCancel := false, AssetToConvert := 0 }
    trace := [] }

/-- The interleaved run of the workers: at each step the schedule `sched` proposes a worker,
`pick` settles on one that can move, and that worker takes one atomic step. Every interleaving
of the workers' steps is the run of some schedule. The run ends when no worker can move;
`none` when the fuel ends first. -/
def runWorkers (t : Task) : Nat → (Nat → Nat) → State → Option State
  | 0, _, s => if allDone s then some s else none
  | fuel + 1, sched, s =>
    match pick s (sched 0) with
    | none => some s
    | some w => runWorkers t fuel (fun k => sched (k + 1)) (stepWorker t w s)

/-- Modelled from the spec: `Threading::ParallelTask` is declared in `ParallelTask.h`, which is
not among the sources. Following section 4.2 it spawns `n` threads that all run the same
lambda on the shared variables, and returns when every thread has left the lambda. The result
is the record of what the threads did. -/
def ParallelTask (t : Task) (n fuel : Nat) (sched : Nat → Nat) : Option (List Event) :=
  (runWorkers t fuel sched (initState n)).map (fun s => s.trace)

/-! ## The two batch exports -/

/-- Modelled from the spec: `IO::Directory::CreateDirectory` is declared in `Directory.h`,
which is not among the sources. Section 4.1 has it create the directory idempotently: the
file system is the list of directories that exist, and creating one that exists changes
nothing. -/
def CreateDirectory (fs : List String) (path : String) : List String :=
  if path ∈ fs then fs else fs ++ [path]

/-- The switch of lines 170-193 on `AssetToExport.AssetType`, with the exporter call of each
case; `Combine` is `IO::Path::Combine` (declared in `Path.h`, not among the sources) and
`Assets` gives the kind tag that `RpakFileSystem->Assets[Asset.AssetHash]` holds. -/
def rpakBody (Combine : String → String → String) (ExportDirectory : String)
    (Assets : Nat → RpakAssetType) (Asset : ExportAsset) : Option ExporterCall :=
  match Assets Asset.AssetHash with
  | RpakAssetType.Texture =>
    some (ExporterCall.ExportTexture Asset.AssetHash (Combine ExportDirectory "images") true)
  | RpakAssetType.UIIA =>
    some (ExporterCall.ExportUIIA Asset.AssetHash (Combine ExportDirectory "images"))
  | RpakAssetType.Material =>
    some (ExporterCall.ExportMaterial Asset.AssetHash (Combine ExportDirectory "materials"))
  | RpakAssetType.Model =>
    some (ExporterCall.ExportModel Asset.AssetHash (Combine ExportDirectory "models")
      (Combine ExportDirectory "animations"))
  | RpakAssetType.AnimationRig =>
    some (ExporterCall.ExportAnimationRig Asset.AssetHash
      (Combine ExportDirectory "animations"))
  | RpakAssetType.DataTable =>
    some (ExporterCall.ExportDataTable Asset.AssetHash (Combine ExportDirectory "datatables"))
  | RpakAssetType.Subtitles =>
    some (ExporterCall.ExportSubtitles Asset.AssetHash (Combine ExportDirectory "subtitles"))
  | RpakAssetType.Other _ => none

/-- The loop body of `ExportMilesAssets`, line 115: every item goes to `ExtractAsset`, into
`sounds/<name>.wav`; `Names` gives the name that `MilesFileSystem->Assets[Asset.AssetHash]`
holds. -/
def milesBody (Combine : String → String → String) (ExportDirectory : String)
    (Names : Nat → String) (Asset : ExportAsset) : Option ExporterCall :=
  some (ExporterCall.ExtractAsset Asset.AssetHash
    (Combine (Combine ExportDirectory "sounds") (Names Asset.AssetHash ++ ".wav")))

/-- The six directories that lines 143-148 create, in that order. -/
def rpakDirectories (Combine : String → String → String) (ExportDirectory : String)
    (fs : List String) : List String :=
  let fs := CreateDirectory fs (Combine ExportDirectory "images")
  let fs := CreateDirectory fs (Combine ExportDirectory "materials")
  let fs := CreateDirectory fs (Combine ExportDirectory "models")
  let fs := CreateDirectory fs (Combine ExportDirectory "animations")
  let fs := CreateDirectory fs (Combine ExportDirectory "subtitles")
  CreateDirectory fs (Combine ExportDirectory "datatables")

/-- The function `ExportManager::ExportRpakAssets`, lines 135-213: create the output
directories, run the worker lambda on `n` threads, then report
`ProgressCallback(100, MainForm, true)`. `fs` holds the directories that exist before the
call. The result is the directories that exist after it and the record of the run; `none`
when the fuel ends before the threads do. The three `Initialize..Exporter` calls choose
output formats and leave no trace here. -/
def ExportRpakAssets (Combine : String → String → String) (ExportPath : String)
    (Assets : Nat → RpakAssetType) (ExportAssets : List ExportAsset)
    (StatusCallback : List Event → Nat → Bool) (n fuel : Nat) (sched : Nat → Nat)
    (fs : List String) : Option (List String × List Event) :=
  let ExportDirectory := ExportPath
  let fs := rpakDirectories Combine ExportDirectory fs
  (ParallelTask ⟨ExportAssets, rpakBody Combine ExportDirectory Assets, StatusCallback⟩
    n fuel sched).map (fun tr => (fs, tr ++ [Event.progress 100 true]))

/-- The function `ExportManager::ExportMilesAssets`, lines 91-133: create `sounds`, run the
worker lambda on `n` threads, then report `ProgressCallback(100, MainForm, true)`. -/
def ExportMilesAssets (Combine : String → String → String) (ExportPath : String)
    (Names : Nat → String) (ExportAssets : List ExportAsset)
    (StatusCallback : List Event → Nat → Bool) (n fuel : Nat) (sched : Nat → Nat)
    (fs : List String) : Option (List String × List Event) :=
  let ExportDirectory := ExportPath
  let fs := CreateDirectory fs (Combine ExportDirectory "sounds")
  (ParallelTask ⟨ExportAssets, milesBody Combine ExportDirectory Names, StatusCallback⟩
    n fuel sched).map (fun tr => (fs, tr ++ [Event.progress 100 true]))

/-- A stand-in for `IO::Path::Combine`: the two parts joined by a slash. -/
def sampleCombine (a b : String) : String := a ++ "/" ++ b

/-- The kind of each sample asset, by hash: 1 and 2 are models, 3 is a texture, every other
hash belongs to a kind without an exporter. -/
def sampleAssets (hash : Nat) : RpakAssetType :=
  if hash = 1 ∨ hash = 2 then RpakAssetType.Model
  else if hash = 3 then RpakAssetType.Texture
  else RpakAssetType.Other 0

/-- The name of each sample audio asset. -/
def sampleNames (hash : Nat) : String := if hash = 1 then "intro" else "loop"

/-- The sample batch: hashes 1, 4, 2, 3 with stable indices 10, 11, 12, 13. -/
def sampleBatch : List ExportAsset := [⟨1, 10⟩, ⟨4, 11⟩, ⟨2, 12⟩, ⟨3, 13⟩]

/-- A status callback that never asks for cancellation. -/
def neverCancel (_ : List Event) (_ : Nat) : Bool := false

/-- A status callback that asks for cancellation when polled about stable index `k`. -/
def cancelAt (k : Nat) (_ : List Event) (stable : Nat) : Bool := decide (stable = k)

/-- Two workers taking turns. -/
def alternate (k : Nat) : Nat := k % 2

/-! ## Reading the record of a run -/

/-- The index a `claim` event took from the cursor. -/
def Event.claimIdx : Event → Option Nat
  | Event.claim _ i => some i
  | _ => none

/-- The worker and batch index of a `dispatch` event. -/
def Event.dispatchIdx : Event → Option (Nat × Nat)
  | Event.dispatch w i _ => some (w, i)
  | _ => none

/-- The worker and batch index of a `status` event. -/
def Event.statusIdx : Event → Option (Nat × Nat)
  | Event.status w i _ _ => some (w, i)
  | _ => none

/-- The worker and batch index of an `update` event. -/
def Event.updateIdx : Event → Option (Nat × Nat)
  | Event.update w i _ => some (w, i)
  | _ => none

/-- The exporter call of a `dispatch` event, when the switch made one. -/
def Event.call : Event → Option ExporterCall
  | Event.dispatch _ _ c => c
  | _ => none

/-- The stable index a `status` event asked about. -/
def Event.stable : Event → Option Nat
  | Event.status _ _ st _ => some st
  | _ => none

/-- The percentage and the final flag of a `progress` event. -/
def Event.report : Event → Option (Nat × Bool)
  | Event.progress p f => some (p, f)
  | _ => none

/-- The worker that an event belongs to; a progress callback is not counted as the work of
a worker. -/
def Event.worker : Event → Option Nat
  | Event.claim w _ => some w
  | Event.dispatch w _ _ => some w
  | Event.status w _ _ _ => some w
  | Event.update w _ _ => some w
  | Event.progress _ _ => none

/-- The indices taken from the cursor, in the order they were taken. -/
def claimed (tr : List Event) : List Nat := tr.filterMap Event.claimIdx

/-- Which worker ran the exporter dispatch for which batch index, in order. -/
def dispatched (tr : List Event) : List (Nat × Nat) := tr.filterMap Event.dispatchIdx

/-- Which worker polled the status callback for which batch index, in order. -/
def polled (tr : List Event) : List (Nat × Nat) := tr.filterMap Event.statusIdx

/-- Which worker ran the progress block for which batch index, in order. -/
def updated (tr : List Event) : List (Nat × Nat) := tr.filterMap Event.updateIdx

/-- The exporter calls of a run, in order. -/
def exporterCalls (tr : List Event) : List ExporterCall := tr.filterMap Event.call

/-- The stable indices the status callback was asked about, in order. -/
def statusCallbacks (tr : List Event) : List Nat := tr.filterMap Event.stable

/-- The progress callbacks of a run, in order. -/
def progressCallbacks (tr : List Event) : List (Nat × Bool) := tr.filterMap Event.report

/-- The events of worker `w`, in order. -/
def workerEvents (w : Nat) (tr : List Event) : List Event :=
  tr.filter (fun e => decide (e.worker = some w))

/-! ## Bookkeeping for the proofs -/

/-- The sum of a weight over the workers. -/
def wsum (f : Worker → Nat) (ws : List Worker) : Nat := (ws.map f).sum

/-- Weight 1 for a worker that is not about to claim. -/
def notFetch (wk : Worker) : Nat := if wk.pc = Pc.fetchAdd then 0 else 1

/-- How far a worker is from its next loop test, in steps. -/
def rank (wk : Worker) : Nat :=
  match wk.pc with
  | Pc.loopCond => 3
  | Pc.fetchAdd => 2
  | Pc.dispatch => 6
  | Pc.poll => 5
  | Pc.update => 4
  | Pc.done => 0

/-- A bound on the steps the workers can still take. -/
def stepsLeft (t : Task) (n : Nat) (s : State) : Nat :=
  5 * (t.ExportAssets.length + n - s.AssetIndex) + wsum rank s.workers

/-- Weight 1 for a worker that holds index `i` and has not yet run the exporter dispatch. -/
def pendDispatch (i : Nat) (wk : Worker) : Nat :=
  if wk.pc = Pc.dispatch ∧ wk.AssetToConvert = i then 1 else 0

/-- Weight 1 for a worker that holds index `i` and has not yet polled the status callback. -/
def pendPoll (i : Nat) (wk : Worker) : Nat :=
  if (wk.pc = Pc.dispatch ∨ wk.pc = Pc.poll) ∧ wk.AssetToConvert = i then 1 else 0

/-- Weight 1 for a worker that holds index `i` and has not yet run the progress block. -/
def pendUpdate (i : Nat) (wk : Worker) : Nat :=
  if (wk.pc = Pc.dispatch ∨ wk.pc = Pc.poll ∨ wk.pc = Pc.update) ∧ wk.AssetToConvert = i
  then 1 else 0

/-! ## Configuration -/

/-- Modelled from the spec: the type tag of `System::SettingType` (declared in `Settings.h`,
which is not among the sources). -/
inductive SettingType where
  | String
  | Integer
  | Boolean
deriving DecidableEq, Repr

/-- Modelled from the spec: a stored setting, tagged with its type. -/
inductive SettingValue where
  | String (v : String)
  | Integer (v : Nat)
  | Boolean (v : Bool)
deriving DecidableEq, Repr

/-- The type tag of a stored value. -/
def SettingValue.type : SettingValue → SettingType
  | SettingValue.String _ => SettingType.String
  | SettingValue.Integer _ => SettingType.Integer
  | SettingValue.Boolean _ => SettingType.Boolean

/-- Modelled from the spec: `System::Settings` is declared in `Settings.h`, which is not among
the sources. Section 6 describes it as typed key-value configuration storage: a list of keys
with typed values, looked up by key and type. -/
abbrev Settings := List (String × SettingValue)

/-- Modelled from the spec: `Config.Has<T>(key)`. -/
def Settings.Has (c : Settings) (ty : SettingType) (key : String) : Bool :=
  c.any (fun e => decide (e.1 = key ∧ e.2.type = ty))

/-- Modelled from the spec: `Config.Get<SettingType::String>(key)`; the empty string when the
key is not there. -/
def Settings.GetString (c : Settings) (key : String) : String :=
  match c.find? (fun e => decide (e.1 = key ∧ e.2.type = SettingType.String)) with
  | some (_, SettingValue.String v) => v
  | _ => ""

/-- Modelled from the spec: `Config.Remove<T>(key)`. -/
def Settings.Remove (c : Settings) (ty : SettingType) (key : String) : Settings :=
  c.filter (fun e => !decide (e.1 = key ∧ e.2.type = ty))

/-- Modelled from the spec: `Config.Set<T>(key, value)` replaces the value of a key that is
there and adds a key that is not. -/
def Settings.Set (c : Settings) (key : String) (v : SettingValue) : Settings :=
  if c.Has v.type key then
    c.map (fun e => if e.1 = key ∧ e.2.type = v.type then (key, v) else e)
  else c ++ [(key, v)]

/-- The pattern of lines 44-62: `if (!Config.Has<T>(key)) Config.Set<T>(key, value)`. -/
def setIfAbsent (c : Settings) (key : String) (v : SettingValue) : Settings :=
  if !c.Has v.type key then c.Set key v else c

/-- The static members of `ExportManager`, lines 10-12. -/
structure Manager where
  Config : Settings
  ApplicationPath : String
  ExportPath : String
deriving DecidableEq, Repr

/-- What the two configuration functions ask of the machine they run on; the functions
behind these fields are declared in `Environment.h`, `Path.h`, `File.h`, `Directory.h` and
`Settings.h`, none of them among the sources. `Load cfg path` is the configuration after
`cfg.Load(path)`. -/
structure Host where
  GetApplicationPath : String
  Combine : String → String → String
  FileExists : String → Bool
  DirectoryExists : String → Bool
  Load : Settings → String → Settings

/-- The numeric values of the default formats `RpakModelExportFormat::SEModel`,
`RpakAnimExportFormat::SEAnim` and `RpakImageExportFormat::Dds`, declared outside the
sources. -/
structure Formats where
  SEModel : Nat
  SEAnim : Nat
  Dds : Nat

/-- The export path and configuration that lines 31-41 and 69-79 settle on: the configured
directory when it exists, else the default path with the key removed. -/
def resolveExportPath (h : Host) (ApplicationPath : String) (Config : Settings) :
    String × Settings :=
  let ExportDirectory := Config.GetString "ExportDirectory"
  if h.DirectoryExists ExportDirectory then (ExportDirectory, Config)
  else (h.Combine ApplicationPath "exported_files",
    Config.Remove SettingType.String "ExportDirectory")

/-- The configuration after lines 16-23: loaded from `Legion.cfg` when that file exists. -/
def loadedConfig (h : Host) (m : Manager) : Settings :=
  let ApplicationPath := h.GetApplicationPath
  let ConfigPath := h.Combine ApplicationPath "Legion.cfg"
  if h.FileExists ConfigPath then h.Load m.Config ConfigPath else m.Config

/-- The function `ExportManager::InitializeExporter`, lines 14-65. The result is the static
members after the call and the file that `Config.Save` wrote: its path and its content. -/
def InitializeExporter (h : Host) (f : Formats) (m : Manager) :
    Manager × (String × Settings) :=
  let ApplicationPath := h.GetApplicationPath
  let ConfigPath := h.Combine ApplicationPath "Legion.cfg"
  let Config := loadedConfig h m
  let r :=
    if !Config.Has SettingType.String "ExportDirectory" then
      (h.Combine ApplicationPath "exported_files", Config)
    else resolveExportPath h ApplicationPath Config
  let ExportPath := r.1
  let Config := r.2
  let Config := setIfAbsent Config "ModelFormat" (SettingValue.Integer f.SEModel)
  let Config := setIfAbsent Config "AnimFormat" (SettingValue.Integer f.SEAnim)
  let Config := setIfAbsent Config "ImageFormat" (SettingValue.Integer f.Dds)
  let Config := setIfAbsent Config "LoadModels" (SettingValue.Boolean true)
  let Config := setIfAbsent Config "LoadAnimations" (SettingValue.Boolean true)
  let Config := setIfAbsent Config "LoadImages" (SettingValue.Boolean true)
  let Config := setIfAbsent Config "LoadMaterials" (SettingValue.Boolean true)
  let Config := setIfAbsent Config "LoadUIImages" (SettingValue.Boolean true)
  let Config := setIfAbsent Config "LoadDataTables" (SettingValue.Boolean true)
  (⟨Config, ApplicationPath, ExportPath⟩, (ConfigPath, Config))

/-- The function `ExportManager::SaveConfigToDisk`, lines 67-82. -/
def SaveConfigToDisk (h : Host) (m : Manager) : Manager × (String × Settings) :=
  let r := resolveExportPath h m.ApplicationPath m.Config
  (⟨r.2, m.ApplicationPath, r.1⟩, (h.Combine m.ApplicationPath "Legion.cfg", r.2))

/-- A sample machine: the application lives in `app`, there is no configuration file, and
the only directory that exists is `d:/exports`. -/
def sampleHost : Host where
  GetApplicationPath := "app"
  Combine := sampleCombine
  FileExists := fun _ => false
  DirectoryExists := fun p => decide (p = "d:/exports")
  Load := fun c _ => c

/-- Sample format numbers. -/
def sampleFormats : Formats := ⟨0, 0, 0⟩

/-- A configuration whose export directory is gone. -/
def staleManager : Manager :=
  ⟨[("ExportDirectory", SettingValue.String "e:/gone"),
    ("ModelFormat", SettingValue.Integer 3)], "app", "e:/gone"⟩

/-! ## The asset list manifest -/

/-- The part of `ApexAsset` (declared in `ApexAsset.h`, not among the sources) that
`ExportRpakAssetList` reads: the display name. -/
structure ApexAsset where
  Name : String
deriving DecidableEq, Repr

/-- Ordinal comparison of two sequences of characters: the first position where they differ
decides, by code unit; a proper initial part comes first. Negative, zero or positive. -/
def compareUnits : List Char → List Char → Int
  | [], [] => 0
  | [], _ :: _ => -1
  | _ :: _, [] => 1
  | a :: as, b :: bs =>
    if a < b then -1 else if b < a then 1 else compareUnits as bs

/-- Modelled from the spec: `String::Compare` is declared in `StringBase.h`, which is not
among the sources. Section 6 calls the manifest order an ordinal lexical sort, so `Compare`
is the ordinal comparison of the two strings. -/
def Compare (lhs rhs : String) : Int := compareUnits lhs.data rhs.data

/-- Putting `x` into a sorted list, before the first element that `x` is less than. -/
def insertSorted (less : String → String → Bool) (x : String) : List String → List String
  | [] => [x]
  | y :: ys => if less x y then x :: y :: ys else y :: insertSorted less x ys

/-- Modelled from the spec: `List::Sort` is declared in `ListBase.h`, which is not among the
sources. It sorts the list by the comparator it is given, here by insertion. (`Sort` is a
reserved word, hence the name.) -/
def SortBy (less : String → String → Bool) (l : List String) : List String :=
  l.foldr (insertSorted less) []

/-- The lines of the manifest: the names of the assets, lines 254-258, sorted with the
comparator `lhs.Compare(rhs) < 0`. -/
def manifestLines (AssetList : List ApexAsset) : List String :=
  SortBy (fun lhs rhs => decide (Compare lhs rhs < 0)) (AssetList.map (fun Asset => Asset.Name))

/-- The function `ExportManager::ExportRpakAssetList`, lines 250-260: create the `lists`
directory and write the sorted names to `<RpakName>.txt` in it. The result is the
directories that exist afterwards and the file written: its path and its lines. -/
def ExportRpakAssetList (Combine : String → String → String) (ExportPath : String)
    (fs : List String) (AssetList : List ApexAsset) (RpakName : String) :
    List String × (String × List String) :=
  let ExportDirectory := Combine ExportPath "lists"
  let fs := CreateDirectory fs ExportDirectory
  (fs, (Combine ExportDirectory (RpakName ++ ".txt"), manifestLines AssetList))

end ExportManager

namespace MdlLib

/-! ## The animation track decoder

`MdlLib.h` declares `ExtractAnimValue`, `CalcBonePosition`, `CalcBoneQuaternion` and
`CalcBoneScale`; their bodies are not among the sources. The definitions of this section
follow sections 3, 4.3 and 6 of the spec. Floating point values, vectors and quaternions are
kept abstract: the decoder only moves them through the operations of `Ops`. -/

/-- Modelled from the spec: a run-length span of a compressed track, "a repeat count and a
delta value" (section 3). -/
structure Span where
  count : Nat
  value : Int
deriving DecidableEq, Repr

/-- Modelled from the spec: a compressed track, the spans of one animated component in frame
order (`mstudioanimvalue_t* panimvalue`). -/
abbrev Track := List Span

/-- Modelled from the spec: the number of frames the spans of a track cover; the authored
frames of the track are `0 .. frames - 1`. -/
def frames (track : Track) : Nat := (track.map (fun sp => sp.count)).sum

/-- Modelled from the spec: the raw value of the span that covers frame `k`, scanning from
the start of the track; `none` when no span covers it. -/
def rawAt : Track → Nat → Option Int
  | [], _ => none
  | sp :: rest, k => if k < sp.count then some sp.value else rawAt rest (k - sp.count)

/-- Modelled from the spec: "a frame index beyond the track's authored frame range clamps to
the last available frame" (section 4.3). -/
def clampFrame (track : Track) (frame : Nat) : Nat := min frame (frames track - 1)

/-- The arithmetic the decoder is built from: `scaled raw scale` turns a raw integer delta
into floating point units, `lerp s v1 v2` interpolates between the two values that bracket
the frame, and the last three combine the decoded deltas with the base pose (additive for
position, compositional for rotation, multiplicative for scale). -/
structure Ops (F V E Q : Type) where
  scaled : Int → F → F
  lerp : F → F → F → F
  addPos : V → F × F × F → V
  composeRot : Q → E → Nat → Q → F × F × F → Q
  mulScale : V → F × F × F → V

/-- Modelled from the spec: `ExtractAnimValue(frame, panimvalue, scale, v1)`, the value of
the track at `frame`; `none` for a track without spans. -/
def ExtractAnimValue {F V E Q : Type} (o : Ops F V E Q) (frame : Nat) (panimvalue : Track)
    (scale : F) : Option F :=
  (rawAt panimvalue (clampFrame panimvalue frame)).map (fun raw => o.scaled raw scale)

/-- Modelled from the spec: `ExtractAnimValue(frame, panimvalue, scale, v1, v2)`, the two
consecutive values that bracket the frame: the one at `frame` and the one at `frame + 1`. -/
def ExtractAnimValue2 {F V E Q : Type} (o : Ops F V E Q) (frame : Nat) (panimvalue : Track)
    (scale : F) : Option (F × F) :=
  match ExtractAnimValue o frame panimvalue scale,
    ExtractAnimValue o (frame + 1) panimvalue scale with
  | some v1, some v2 => some (v1, v2)
  | _, _ => none

/-- Modelled from the spec: one decoded component, the two bracketing values interpolated at
the fraction `s`. -/
def decodeAxis {F V E Q : Type} (o : Ops F V E Q) (frame : Nat) (s : F) (panimvalue : Track)
    (scale : F) : Option F :=
  (ExtractAnimValue2 o frame panimvalue scale).map (fun v => o.lerp s v.1 v.2)

/-- Modelled from the spec: the three axes of one component; `none` when a track has no
spans. -/
def decodeAxes {F V E Q : Type} (o : Ops F V E Q) (frame : Nat) (s : F)
    (tracks : Track × Track × Track) (scale : F × F × F) : Option (F × F × F) :=
  match decodeAxis o frame s tracks.1 scale.1, decodeAxis o frame s tracks.2.1 scale.2.1,
    decodeAxis o frame s tracks.2.2 scale.2.2 with
  | some x, some y, some z => some (x, y, z)
  | _, _, _ => none

/-- Modelled from the spec: the compressed animation of one bone
(`titanfall2::mstudio_rle_anim_t`). A component is `none` when the bone flags say that the
track supplies no delta for it. -/
structure RleAnim where
  pos : Option (Track × Track × Track)
  rot : Option (Track × Track × Track)
  scale : Option (Track × Track × Track)

/-- Modelled from the spec: `CalcBonePosition`: the base position when the track supplies no
position (or has no spans), else the base position plus the decoded offsets. -/
def CalcBonePosition {F V E Q : Type} (o : Ops F V E Q) (frame : Nat) (s : F) (basePos : V)
    (baseBoneScale : F) (panim : RleAnim) : V :=
  match panim.pos with
  | none => basePos
  | some tracks =>
    match decodeAxes o frame s tracks (baseBoneScale, baseBoneScale, baseBoneScale) with
    | none => basePos
    | some d => o.addPos basePos d

/-- Modelled from the spec: `CalcBoneQuaternion`: the base rotation when the track supplies
no rotation (or has no spans), else the composition of base rotation, alignment and decoded
delta. -/
def CalcBoneQuaternion {F V E Q : Type} (o : Ops F V E Q) (frame : Nat) (s : F) (baseQuat : Q)
    (baseRot : E) (baseRotScale : F × F × F) (iBaseFlags : Nat) (baseAlignment : Q)
    (panim : RleAnim) : Q :=
  match panim.rot with
  | none => baseQuat
  | some tracks =>
    match decodeAxes o frame s tracks baseRotScale with
    | none => baseQuat
    | some d => o.composeRot baseQuat baseRot iBaseFlags baseAlignment d

/-- Modelled from the spec: `CalcBoneScale`: the base scale when the track supplies no scale
(or has no spans), else the base scale times the decoded factors. -/
def CalcBoneScale {F V E Q : Type} (o : Ops F V E Q) (frame : Nat) (s : F) (baseScale : V)
    (baseScaleScale : F × F × F) (panim : RleAnim) : V :=
  match panim.scale with
  | none => baseScale
  | some tracks =>
    match decodeAxes o frame s tracks baseScaleScale with
    | none => baseScale
    | some d => o.mulScale baseScale d

/-- Every track of the animation covers the same `n` frames (the invariant of section 3:
"spans fully cover the animation's frame range"). -/
def Covers (panim : RleAnim) (n : Nat) : Prop :=
  ∀ tracks, (panim.pos = some tracks ∨ panim.rot = some tracks ∨ panim.scale = some tracks) →
    frames tracks.1 = n ∧ frames tracks.2.1 = n ∧ frames tracks.2.2 = n

/-- Integer arithmetic standing in for floating point, to run the decoder on. -/
def sampleOps : Ops Int (Int × Int × Int) Unit (Int × Int × Int) where
  scaled := fun raw scale => raw * scale
  lerp := fun s v1 v2 => v1 + s * (v2 - v1)
  addPos := fun b d => (b.1 + d.1, b.2.1 + d.2.1, b.2.2 + d.2.2)
  composeRot := fun b _ _ _ d => (b.1 + d.1, b.2.1 + d.2.1, b.2.2 + d.2.2)
  mulScale := fun b d => (b.1 * d.1, b.2.1 * d.2.1, b.2.2 * d.2.2)

/-- A track of five frames: two at 3, three at 7. -/
def sampleTrack : Track := [⟨2, 3⟩, ⟨3, 7⟩]

/-- A bone whose position and scale are animated over five frames, the rotation is not. -/
def sampleAnim : RleAnim :=
  ⟨some (sampleTrack, [⟨5, 1⟩], [⟨1, 0⟩, ⟨4, 2⟩]), none,
    some ([⟨5, 2⟩], sampleTrack, sampleTrack)⟩

end MdlLib

namespace ExportManager

/-! ## The steps of a worker, one case each -/

/-- The step relation that `stepWorker` computes, one constructor per case of the lambda. -/
inductive Step (t : Task) (w : Nat) (s : State) : State → Prop where
  | enter (wk : Worker) (hw : s.workers[w]? = some wk) (hp : wk.pc = Pc.loopCond)
      (hlt : s.AssetIndex < t.ExportAssets.length) (hc : wk.IsCancel = false) :
      Step t w s ⟨s.AssetIndex, s.CurrentProgress,
        s.workers.set w ⟨Pc.fetchAdd, wk.IsCancel, wk.AssetToConvert⟩, s.trace⟩
  | leave (wk : Worker) (hw : s.workers[w]? = some wk) (hp : wk.pc = Pc.loopCond)
      (hc : t.ExportAssets.length ≤ s.AssetIndex ∨ wk.IsCancel = true) :
      Step t w s ⟨s.AssetIndex, s.CurrentProgress,
        s.workers.set w ⟨Pc.done, wk.IsCancel, wk.AssetToConvert⟩, s.trace⟩
  | stale (wk : Worker) (hw : s.workers[w]? = some wk) (hp : wk.pc = Pc.fetchAdd)
      (hge : t.ExportAssets.length ≤ s.AssetIndex) :
      Step t w s ⟨(s.AssetIndex + 1) % 2 ^ 32, s.CurrentProgress,
        s.workers.set w ⟨Pc.loopCond, wk.IsCancel, s.AssetIndex⟩,
        s.trace ++ [Event.claim w s.AssetIndex]⟩
  | claim (wk : Worker) (hw : s.workers[w]? = some wk) (hp : wk.pc = Pc.fetchAdd)
      (hlt : s.AssetIndex < t.ExportAssets.length) :
      Step t w s ⟨(s.AssetIndex + 1) % 2 ^ 32, s.CurrentProgress,
        s.workers.set w ⟨Pc.dispatch, wk.IsCancel, s.AssetIndex⟩,
        s.trace ++ [Event.claim w s.AssetIndex]⟩
  | dispatch (wk : Worker) (hw : s.workers[w]? = some wk) (hp : wk.pc = Pc.dispatch) :
      Step t w s ⟨s.AssetIndex, s.CurrentProgress,
        s.workers.set w ⟨Pc.poll, wk.IsCancel, wk.AssetToConvert⟩,
        s.trace ++ [Event.dispatch w wk.AssetToConvert
          (t.body (t.ExportAssets[wk.AssetToConvert]?.getD default))]⟩
  | poll (wk : Worker) (hw : s.workers[w]? = some wk) (hp : wk.pc = Pc.poll) :
      Step t w s ⟨s.AssetIndex, s.CurrentProgress,
        s.workers.set w ⟨Pc.update,
          t.StatusCallback s.trace (t.ExportAssets[wk.AssetToConvert]?.getD default).AssetIndex,
          wk.AssetToConvert⟩,
        s.trace ++ [Event.status w wk.AssetToConvert
          (t.ExportAssets[wk.AssetToConvert]?.getD default).AssetIndex
          (t.StatusCallback s.trace
            (t.ExportAssets[wk.AssetToConvert]?.getD default).AssetIndex)]⟩
  | report (wk : Worker) (hw : s.workers[w]? = some wk) (hp : wk.pc = Pc.update)
      (hgt : NewProgress wk.AssetToConvert t.ExportAssets.length > s.CurrentProgress) :
      Step t w s ⟨s.AssetIndex, NewProgress wk.AssetToConvert t.ExportAssets.length,
        s.workers.set w ⟨Pc.loopCond, wk.IsCancel, wk.AssetToConvert⟩,
        s.trace ++ [Event.update w wk.AssetToConvert
            (NewProgress wk.AssetToConvert t.ExportAssets.length),
          Event.progress (NewProgress wk.AssetToConvert t.ExportAssets.length) false]⟩
  | silent (wk : Worker) (hw : s.workers[w]? = some wk) (hp : wk.pc = Pc.update)
      (hle : NewProgress wk.AssetToConvert t.ExportAssets.length ≤ s.CurrentProgress) :
      Step t w s ⟨s.AssetIndex, s.CurrentProgress,
        s.workers.set w ⟨Pc.loopCond, wk.IsCancel, wk.AssetToConvert⟩,
        s.trace ++ [Event.update w wk.AssetToConvert
            (NewProgress wk.AssetToConvert t.ExportAssets.length)]⟩

/-- An interleaving of the workers' atomic steps: the workers that move, in order, each one
inside the lambda when it moves, until none is. -/
inductive Interleaving (t : Task) : List Nat → State → State → Prop where
  | done (s : State) (h : allDone s = true) : Interleaving t [] s s
  | step (w : Nat) (l : List Nat) (s s' : State) (hw : active s w = true)
      (h : Interleaving t l (stepWorker t w s) s') : Interleaving t (w :: l) s s'

/-- The facts about the shared cursor that every reachable state satisfies. -/
structure Core (t : Task) (n : Nat) (s : State) : Prop where
  len : s.workers.length = n
  cursor : s.AssetIndex - t.ExportAssets.length ≤ wsum notFetch s.workers
  inRange : ∀ wk ∈ s.workers, (wk.pc = Pc.dispatch ∨ wk.pc = Pc.poll ∨ wk.pc = Pc.update) →
    wk.AssetToConvert < t.ExportAssets.length

/-- Every index below the cursor and inside the batch is accounted for exactly once at each
stage of the loop body: either the stage is on record, or one worker still holds the index
before that stage. -/
structure Counts (t : Task) (s : State) : Prop where
  claimed : claimed s.trace = List.range s.AssetIndex
  acct : ∀ i,
    (((dispatched s.trace).map Prod.snd).count i + wsum (pendDispatch i) s.workers =
      if i < s.AssetIndex ∧ i < t.ExportAssets.length then 1 else 0) ∧
    (((polled s.trace).map Prod.snd).count i + wsum (pendPoll i) s.workers =
      if i < s.AssetIndex ∧ i < t.ExportAssets.length then 1 else 0) ∧
    (((updated s.trace).map Prod.snd).count i + wsum (pendUpdate i) s.workers =
      if i < s.AssetIndex ∧ i < t.ExportAssets.length then 1 else 0)

/-- A worker that left the loop was cancelled or saw the cursor at the end of the batch. -/
def Exit (t : Task) (s : State) : Prop :=
  ∀ wk ∈ s.workers, wk.pc = Pc.done → wk.IsCancel = true ∨ t.ExportAssets.length ≤ s.AssetIndex

/-- No worker has been told to cancel. -/
def Calm (s : State) : Prop := ∀ wk ∈ s.workers, wk.IsCancel = false

/-- What the events on record carry: the exporter calls are those of the loop body for the
dispatched indices, the status callback was asked about the stable index of each polled
item, and no worker reported a final progress. -/
structure Payload (t : Task) (s : State) : Prop where
  calls : exporterCalls s.trace = ((dispatched s.trace).map Prod.snd).filterMap
    (fun i => t.body (t.ExportAssets[i]?.getD default))
  stables : statusCallbacks s.trace = ((polled s.trace).map Prod.snd).map
    (fun i => (t.ExportAssets[i]?.getD default).AssetIndex)
  notFinal : ∀ x ∈ progressCallbacks s.trace, x.2 = false

/-- The progress reports on record rise strictly, are positive, the last one is
`CurrentProgress`, `CurrentProgress` is at least the percentage of every item whose
progress block has run, and at most any bound on the percentages of the batch. -/
structure Reports (t : Task) (s : State) : Prop where
  rising : ((progressCallbacks s.trace).map Prod.fst).Pairwise (fun a b => a < b)
  bounded : ∀ p ∈ (progressCallbacks s.trace).map Prod.fst, 0 < p ∧ p ≤ s.CurrentProgress
  last : s.CurrentProgress = 0 ∨ s.CurrentProgress ∈ (progressCallbacks s.trace).map Prod.fst
  covers : ∀ x ∈ updated s.trace, NewProgress x.2 t.ExportAssets.length ≤ s.CurrentProgress
  capped : ∀ B, (∀ i, i < t.ExportAssets.length → NewProgress i t.ExportAssets.length ≤ B) →
    s.CurrentProgress ≤ B

/-- With an empty batch nothing is on record and no worker is inside the loop body. -/
def Idle (t : Task) (s : State) : Prop :=
  t.ExportAssets = [] → s.trace = [] ∧ ∀ wk ∈ s.workers, wk.pc = Pc.loopCond ∨ wk.pc = Pc.done

/-- The status callback asked for cancellation in this event. -/
def Event.isCancel : Event → Bool
  | Event.status _ _ _ true => true
  | _ => false

/-- What the events of worker `w` look like, given where the worker stands: inside the loop
body they end with the stages of the held index that are done, and once a poll has answered
cancel they end with that item's claim, exporter dispatch, poll and progress block. -/
def Shape (w : Nat) : Option Worker → List Event → Prop
  | none, l => l = []
  | some wk, l =>
    match wk.pc with
    | Pc.fetchAdd => wk.IsCancel = false ∧ ∀ e ∈ l, e.isCancel = false
    | Pc.dispatch => ∃ pre, l = pre ++ [Event.claim w wk.AssetToConvert] ∧
        ∀ e ∈ pre, e.isCancel = false
    | Pc.poll => ∃ pre c, l = pre ++ [Event.claim w wk.AssetToConvert,
          Event.dispatch w wk.AssetToConvert c] ∧
        ∀ e ∈ pre, e.isCancel = false
    | Pc.update => ∃ pre c st, l = pre ++ [Event.claim w wk.AssetToConvert,
          Event.dispatch w wk.AssetToConvert c,
          Event.status w wk.AssetToConvert st wk.IsCancel] ∧
        ∀ e ∈ pre, e.isCancel = false
    | _ =>
      if wk.IsCancel = true then
        ∃ pre i c st p, l = pre ++ [Event.claim w i, Event.dispatch w i c,
          Event.status w i st true, Event.update w i p] ∧ ∀ e ∈ pre, e.isCancel = false
      else ∀ e ∈ l, e.isCancel = false

/-- The events of every worker have the shape that goes with where the worker stands. -/
def Contained (s : State) : Prop :=
  ∀ w, Shape w s.workers[w]? (workerEvents w s.trace)

/-- What one event of a worker carries: an exporter dispatch is for an index of the batch and
holds the exporter call of the loop body for the item at that index; a poll is for an index
of the batch and asks about the stable index of that item; a progress block is for an index
of the batch and holds the percentage computed from that index. -/
def Genuine (t : Task) : Event → Prop
  | Event.dispatch _ i c =>
    i < t.ExportAssets.length ∧ c = t.body (t.ExportAssets[i]?.getD default)
  | Event.status _ i st _ =>
    i < t.ExportAssets.length ∧ st = (t.ExportAssets[i]?.getD default).AssetIndex
  | Event.update _ i p =>
    i < t.ExportAssets.length ∧ p = NewProgress i t.ExportAssets.length
  | _ => True

/-- Every event on record carries what the loop body computes for its index. -/
def Faithful (t : Task) (s : State) : Prop := ∀ e ∈ s.trace, Genuine t e

/-- The answer on record for a poll is what `StatusCallback` returned when it was asked, with
everything before the poll on record. -/
def Answers (t : Task) (tr : List Event) : Prop :=
  ∀ before w i st b after, tr = before ++ Event.status w i st b :: after →
    b = t.StatusCallback before st

/-- Everything the proofs keep track of along a run. -/
structure Inv (t : Task) (s : State) : Prop where
  counts : Counts t s
  exit : Exit t s
  payload : Payload t s
  reports : Reports t s
  idle : Idle t s
  contained : Contained s
  faithful : Faithful t s
  answers : Answers t s.trace
  calm : (∀ tr i, t.StatusCallback tr i = false) → Calm s

/-! ## Sums over the workers -/

theorem wsum_set (f : Worker → Nat) (wk' : Worker) :
    ∀ (ws : List Worker) (w : Nat) (wk : Worker), ws[w]? = some wk →
      wsum f (ws.set w wk') + f wk = wsum f ws + f wk'
  | [], w, wk, h => by simp at h
  | a :: ws, 0, wk, h => by
      simp at h
      subst h
      simp [wsum]
      omega
  | a :: ws, w + 1, wk, h => by
      simp at h
      have ih := wsum_set f wk' ws w wk (by simpa using h)
      simp [wsum] at ih ⊢
      omega

theorem wsum_le_length (f : Worker → Nat) (hf : ∀ x, f x ≤ 1) :
    ∀ ws : List Worker, wsum f ws ≤ ws.length
  | [] => by simp [wsum]
  | a :: ws => by
      have ih := wsum_le_length f hf ws
      have := hf a
      simp [wsum] at ih ⊢
      omega

theorem wsum_lt_length (f : Worker → Nat) (hf : ∀ x, f x ≤ 1) :
    ∀ (ws : List Worker) (w : Nat) (wk : Worker), ws[w]? = some wk → f wk = 0 →
      wsum f ws + 1 ≤ ws.length
  | [], w, wk, h, _ => by simp at h
  | a :: ws, 0, wk, h, h0 => by
      simp at h
      subst h
      have := wsum_le_length f hf ws
      simp [wsum, h0] at this ⊢
      omega
  | a :: ws, w + 1, wk, h, h0 => by
      have ih := wsum_lt_length f hf ws w wk (by simpa using h) h0
      have := hf a
      simp [wsum] at ih ⊢
      omega

theorem wsum_eq_zero (f : Worker → Nat) :
    ∀ ws : List Worker, (∀ wk ∈ ws, f wk = 0) → wsum f ws = 0
  | [], _ => by simp [wsum]
  | a :: ws, h => by
      have ih := wsum_eq_zero f ws (fun wk hwk => h wk (List.mem_cons_of_mem _ hwk))
      have := h a (List.mem_cons_self _ _)
      simp only [wsum, List.map_cons, List.sum_cons] at ih ⊢
      omega

theorem wsum_replicate (f : Worker → Nat) (n : Nat) (wk : Worker) :
    wsum f (List.replicate n wk) = n * f wk := by
  simp [wsum]

/-! ## The steps of a worker, one case each -/

theorem active_iff {s : State} {w : Nat} :
    active s w = true ↔ ∃ wk, s.workers[w]? = some wk ∧ wk.pc ≠ Pc.done := by
  unfold active
  cases h : s.workers[w]? <;> simp

theorem stepWorker_inactive (t : Task) {s : State} {w : Nat} (h : active s w = false) :
    stepWorker t w s = s := by
  unfold active at h
  unfold stepWorker
  cases hw : s.workers[w]? with
  | none => rfl
  | some wk =>
    simp [hw] at h
    simp [h]

/-- A worker that can move takes exactly the step the relation describes. -/
theorem stepWorker_step (t : Task) {s : State} {w : Nat} (h : active s w = true) :
    Step t w s (stepWorker t w s) := by
  obtain ⟨wk, hw, hnd⟩ := active_iff.1 h
  cases hp : wk.pc with
  | loopCond =>
    simp only [stepWorker, hw, hp]
    split
    · rename_i hc
      exact Step.enter wk hw hp hc.1 hc.2
    · rename_i hc
      refine Step.leave wk hw hp ?_
      by_cases h1 : s.AssetIndex < t.ExportAssets.length
      · right
        cases hb : wk.IsCancel
        · exact absurd ⟨h1, hb⟩ hc
        · rfl
      · left; omega
  | fetchAdd =>
    simp only [stepWorker, hw, hp]
    by_cases hge : s.AssetIndex ≥ t.ExportAssets.length
    · rw [if_pos hge]
      exact Step.stale wk hw hp hge
    · rw [if_neg hge]
      exact Step.claim wk hw hp (by omega)
  | dispatch =>
    simp only [stepWorker, hw, hp]
    exact Step.dispatch wk hw hp
  | poll =>
    simp only [stepWorker, hw, hp]
    exact Step.poll wk hw hp
  | update =>
    simp only [stepWorker, hw, hp]
    split
    · rename_i hgt
      exact Step.report wk hw hp hgt
    · rename_i hgt
      exact Step.silent wk hw hp (by omega)
  | done => exact absurd hp hnd

/-! ## The cursor never wraps, and the run ends -/

theorem notFetch_le_one (wk : Worker) : notFetch wk ≤ 1 := by
  unfold notFetch; split <;> omega

theorem core_init (t : Task) (n : Nat) : Core t n (initState n) := by
  refine ⟨by simp [initState], by simp [initState], ?_⟩
  intro wk hwk h
  simp [initState] at hwk
  rcases hwk with ⟨_, rfl⟩
  simp at h

theorem stepsLeft_init (t : Task) (n : Nat) :
    stepsLeft t n (initState n) = 5 * t.ExportAssets.length + 8 * n := by
  simp [stepsLeft, initState, wsum_replicate, rank]
  omega

/-- Below the overflow bound the fetch-and-increment of a worker about to claim is a plain
increment. -/
theorem cursor_no_wrap {t : Task} {n : Nat} {s : State} (h : Core t n s)
    (hKn : t.ExportAssets.length + n < 2 ^ 32) {w : Nat} {wk : Worker}
    (hw : s.workers[w]? = some wk) (hp : wk.pc = Pc.fetchAdd) :
    (s.AssetIndex + 1) % 2 ^ 32 = s.AssetIndex + 1 ∧
      s.AssetIndex + 1 ≤ t.ExportAssets.length + n := by
  have h1 := wsum_lt_length notFetch notFetch_le_one s.workers w wk hw (by simp [notFetch, hp])
  have h2 := h.cursor
  have h3 := h.len
  have : s.AssetIndex + 1 ≤ t.ExportAssets.length + n := by omega
  exact ⟨Nat.mod_eq_of_lt (by omega), this⟩

theorem inRange_set {t : Task} {s : State} {w : Nat} {wk' : Worker}
    (h : ∀ wk ∈ s.workers, (wk.pc = Pc.dispatch ∨ wk.pc = Pc.poll ∨ wk.pc = Pc.update) →
      wk.AssetToConvert < t.ExportAssets.length)
    (h' : (wk'.pc = Pc.dispatch ∨ wk'.pc = Pc.poll ∨ wk'.pc = Pc.update) →
      wk'.AssetToConvert < t.ExportAssets.length) :
    ∀ wk ∈ s.workers.set w wk', (wk.pc = Pc.dispatch ∨ wk.pc = Pc.poll ∨ wk.pc = Pc.update) →
      wk.AssetToConvert < t.ExportAssets.length := by
  intro wk hm hpc
  rcases List.mem_or_eq_of_mem_set hm with hm | rfl
  · exact h wk hm hpc
  · exact h' hpc

theorem core_step {t : Task} {n : Nat} {s s' : State} {w : Nat} (h : Core t n s)
    (hKn : t.ExportAssets.length + n < 2 ^ 32) (hs : Step t w s s') :
    Core t n s' ∧ stepsLeft t n s' < stepsLeft t n s := by
  have hlen := h.len
  have hcur := h.cursor
  have hle := wsum_le_length notFetch notFetch_le_one s.workers
  cases hs with
  | enter wk hw hp hlt hc =>
    have e1 := wsum_set notFetch ⟨Pc.fetchAdd, wk.IsCancel, wk.AssetToConvert⟩ s.workers w wk hw
    have e2 := wsum_set rank ⟨Pc.fetchAdd, wk.IsCancel, wk.AssetToConvert⟩ s.workers w wk hw
    simp only [notFetch, rank, hp] at e1 e2
    refine ⟨⟨by simpa using hlen, ?_, inRange_set h.inRange (by simp)⟩, ?_⟩
    · simp only []; omega
    · simp only [stepsLeft]; omega
  | leave wk hw hp hc =>
    have e1 := wsum_set notFetch ⟨Pc.done, wk.IsCancel, wk.AssetToConvert⟩ s.workers w wk hw
    have e2 := wsum_set rank ⟨Pc.done, wk.IsCancel, wk.AssetToConvert⟩ s.workers w wk hw
    simp [notFetch, rank, hp] at e1 e2
    refine ⟨⟨by simpa using hlen, ?_, inRange_set h.inRange (by simp)⟩, ?_⟩
    · simp only []; omega
    · simp only [stepsLeft]; omega
  | stale wk hw hp hge =>
    obtain ⟨hmod, hbound⟩ := cursor_no_wrap h hKn hw hp
    rw [hmod]
    have e1 := wsum_set notFetch ⟨Pc.loopCond, wk.IsCancel, s.AssetIndex⟩ s.workers w wk hw
    have e2 := wsum_set rank ⟨Pc.loopCond, wk.IsCancel, s.AssetIndex⟩ s.workers w wk hw
    simp [notFetch, rank, hp] at e1 e2
    refine ⟨⟨by simpa using hlen, ?_, inRange_set h.inRange (by simp)⟩, ?_⟩
    · simp only []; omega
    · simp only [stepsLeft]; omega
  | claim wk hw hp hlt =>
    obtain ⟨hmod, hbound⟩ := cursor_no_wrap h hKn hw hp
    rw [hmod]
    have e1 := wsum_set notFetch ⟨Pc.dispatch, wk.IsCancel, s.AssetIndex⟩ s.workers w wk hw
    have e2 := wsum_set rank ⟨Pc.dispatch, wk.IsCancel, s.AssetIndex⟩ s.workers w wk hw
    simp [notFetch, rank, hp] at e1 e2
    refine ⟨⟨by simpa using hlen, ?_, inRange_set h.inRange (by simpa using hlt)⟩, ?_⟩
    · simp only []; omega
    · simp only [stepsLeft]; omega
  | dispatch wk hw hp =>
    have hr := h.inRange wk (List.getElem?_mem hw) (by simp [hp])
    have e1 := wsum_set notFetch ⟨Pc.poll, wk.IsCancel, wk.AssetToConvert⟩ s.workers w wk hw
    have e2 := wsum_set rank ⟨Pc.poll, wk.IsCancel, wk.AssetToConvert⟩ s.workers w wk hw
    simp [notFetch, rank, hp] at e1 e2
    refine ⟨⟨by simpa using hlen, ?_, inRange_set h.inRange (by simpa using hr)⟩, ?_⟩
    · simp only []; omega
    · simp only [stepsLeft]; omega
  | poll wk hw hp =>
    have hr := h.inRange wk (List.getElem?_mem hw) (by simp [hp])
    have e1 := wsum_set notFetch ⟨Pc.update,
      t.StatusCallback s.trace (t.ExportAssets[wk.AssetToConvert]?.getD default).AssetIndex,
      wk.AssetToConvert⟩ s.workers w wk hw
    have e2 := wsum_set rank ⟨Pc.update,
      t.StatusCallback s.trace (t.ExportAssets[wk.AssetToConvert]?.getD default).AssetIndex,
      wk.AssetToConvert⟩ s.workers w wk hw
    simp [notFetch, rank, hp] at e1 e2
    refine ⟨⟨by simpa using hlen, ?_, inRange_set h.inRange (fun _ => hr)⟩, ?_⟩
    · simp; omega
    · simp [stepsLeft]; omega
  | report wk hw hp hgt =>
    have e1 := wsum_set notFetch ⟨Pc.loopCond, wk.IsCancel, wk.AssetToConvert⟩ s.workers w wk hw
    have e2 := wsum_set rank ⟨Pc.loopCond, wk.IsCancel, wk.AssetToConvert⟩ s.workers w wk hw
    simp [notFetch, rank, hp] at e1 e2
    refine ⟨⟨by simpa using hlen, ?_, inRange_set h.inRange (by simp)⟩, ?_⟩
    · simp only []; omega
    · simp only [stepsLeft]; omega
  | silent wk hw hp hle' =>
    have e1 := wsum_set notFetch ⟨Pc.loopCond, wk.IsCancel, wk.AssetToConvert⟩ s.workers w wk hw
    have e2 := wsum_set rank ⟨Pc.loopCond, wk.IsCancel, wk.AssetToConvert⟩ s.workers w wk hw
    simp [notFetch, rank, hp] at e1 e2
    refine ⟨⟨by simpa using hlen, ?_, inRange_set h.inRange (by simp)⟩, ?_⟩
    · simp only []; omega
    · simp only [stepsLeft]; omega

theorem pick_some {s : State} {c w : Nat} (h : pick s c = some w) : active s w = true := by
  unfold pick at h
  split at h
  · rename_i hc
    cases h
    exact hc
  · exact List.find?_some h

theorem pick_none {s : State} {c : Nat} (h : pick s c = none) : allDone s = true := by
  unfold pick at h
  split at h
  · cases h
  · rw [List.find?_eq_none] at h
    unfold allDone
    rw [List.all_eq_true]
    intro wk hwk
    obtain ⟨i, hi, rfl⟩ := List.getElem_of_mem hwk
    have h1 := h i (List.mem_range.2 hi)
    have h2 : s.workers[i]? = some s.workers[i] := List.getElem?_eq_getElem hi
    unfold active at h1
    rw [h2] at h1
    simpa using h1

theorem allDone_iff {s : State} : allDone s = true ↔ ∀ wk ∈ s.workers, wk.pc = Pc.done := by
  unfold allDone
  simp

/-- Enough fuel ends the run, whatever the schedule: the result is a state in which every
worker has left the loop, and every property that the steps preserve holds in it. -/
theorem runWorkers_total (t : Task) (n : Nat) (hKn : t.ExportAssets.length + n < 2 ^ 32)
    (P : State → Prop)
    (hP : ∀ (s s' : State) (w : Nat), Core t n s → P s → Step t w s s' → P s') :
    ∀ (fuel : Nat) (sched : Nat → Nat) (s : State), Core t n s → P s →
      stepsLeft t n s ≤ fuel →
      ∃ s', runWorkers t fuel sched s = some s' ∧ Core t n s' ∧ P s' ∧ allDone s' = true
  | 0, sched, s, hc, hp, hf => by
    cases hpk : pick s 0 with
    | none =>
      have hd := pick_none hpk
      exact ⟨s, by simp [runWorkers, hd], hc, hp, hd⟩
    | some w =>
      have hs := stepWorker_step t (pick_some hpk)
      have := (core_step hc hKn hs).2
      omega
  | fuel + 1, sched, s, hc, hp, hf => by
    cases hpk : pick s (sched 0) with
    | none =>
      exact ⟨s, by simp [runWorkers, hpk], hc, hp, pick_none hpk⟩
    | some w =>
      have hs := stepWorker_step t (pick_some hpk)
      have hcs := core_step hc hKn hs
      obtain ⟨s', h1, h2⟩ := runWorkers_total t n hKn P hP fuel (fun k => sched (k + 1))
        (stepWorker t w s) hcs.1 (hP _ _ _ hc hp hs) (by omega)
      exact ⟨s', by simp [runWorkers, hpk, h1], h2⟩

/-- Every interleaving of the workers' steps is the run of a schedule: the schedule that
names the workers in the order in which they move. -/
theorem runWorkers_complete (t : Task) : ∀ (l : List Nat) (s s' : State),
    Interleaving t l s s' → runWorkers t l.length (fun k => l.getD k 0) s = some s'
  | [], s, s', h => by
    cases h with
    | done _ hd => simp [runWorkers, hd]
  | w :: l, s, s', h => by
    cases h with
    | step _ _ _ _ hw hrest =>
      have ih := runWorkers_complete t l _ _ hrest
      have hp : pick s w = some w := by simp [pick, hw]
      simp only [List.length_cons, runWorkers, List.getD_cons_zero, hp, List.getD_cons_succ]
      exact ih

theorem counts_init (t : Task) (n : Nat) : Counts t (initState n) := by
  refine ⟨by simp [initState, claimed], fun i => ?_⟩
  simp [initState, dispatched, polled, updated, wsum_replicate, pendDispatch, pendPoll,
    pendUpdate]

theorem counts_step {t : Task} {n : Nat} {s s' : State} {w : Nat} (hc : Core t n s)
    (hKn : t.ExportAssets.length + n < 2 ^ 32) (h : Counts t s) (hs : Step t w s s') :
    Counts t s' := by
  have hcl := h.claimed
  cases hs with
  | enter wk hw hp hlt hc' =>
    refine ⟨hcl, fun i => ?_⟩
    have e1 := wsum_set (pendDispatch i) ⟨Pc.fetchAdd, wk.IsCancel, wk.AssetToConvert⟩ s.workers w wk hw
    have e2 := wsum_set (pendPoll i) ⟨Pc.fetchAdd, wk.IsCancel, wk.AssetToConvert⟩ s.workers w wk hw
    have e3 := wsum_set (pendUpdate i) ⟨Pc.fetchAdd, wk.IsCancel, wk.AssetToConvert⟩ s.workers w wk hw
    obtain ⟨h1, h2, h3⟩ := h.acct i
    simp [pendDispatch, pendPoll, pendUpdate, hp] at e1 e2 e3
    simp [dispatched, polled, updated, Event.dispatchIdx, Event.statusIdx, Event.updateIdx,
      List.count_singleton] at h1 h2 h3 ⊢
    refine ⟨?_, ?_, ?_⟩ <;> split_ifs at * <;> omega
  | leave wk hw hp hc' =>
    refine ⟨hcl, fun i => ?_⟩
    have e1 := wsum_set (pendDispatch i) ⟨Pc.done, wk.IsCancel, wk.AssetToConvert⟩ s.workers w wk hw
    have e2 := wsum_set (pendPoll i) ⟨Pc.done, wk.IsCancel, wk.AssetToConvert⟩ s.workers w wk hw
    have e3 := wsum_set (pendUpdate i) ⟨Pc.done, wk.IsCancel, wk.AssetToConvert⟩ s.workers w wk hw
    obtain ⟨h1, h2, h3⟩ := h.acct i
    simp [pendDispatch, pendPoll, pendUpdate, hp] at e1 e2 e3
    simp [dispatched, polled, updated, Event.dispatchIdx, Event.statusIdx, Event.updateIdx,
      List.count_singleton] at h1 h2 h3 ⊢
    refine ⟨?_, ?_, ?_⟩ <;> split_ifs at * <;> omega
  | stale wk hw hp hge =>
    obtain ⟨hmod, hbound⟩ := cursor_no_wrap hc hKn hw hp
    rw [hmod]
    refine ⟨by simp [claimed, Event.claimIdx, List.range_succ, ← hcl], fun i => ?_⟩
    have e1 := wsum_set (pendDispatch i) ⟨Pc.loopCond, wk.IsCancel, s.AssetIndex⟩ s.workers w wk hw
    have e2 := wsum_set (pendPoll i) ⟨Pc.loopCond, wk.IsCancel, s.AssetIndex⟩ s.workers w wk hw
    have e3 := wsum_set (pendUpdate i) ⟨Pc.loopCond, wk.IsCancel, s.AssetIndex⟩ s.workers w wk hw
    obtain ⟨h1, h2, h3⟩ := h.acct i
    simp [pendDispatch, pendPoll, pendUpdate, hp] at e1 e2 e3
    simp [dispatched, polled, updated, Event.dispatchIdx, Event.statusIdx, Event.updateIdx,
      List.count_singleton] at h1 h2 h3 ⊢
    refine ⟨?_, ?_, ?_⟩ <;> split_ifs at * <;> omega
  | claim wk hw hp hlt =>
    obtain ⟨hmod, hbound⟩ := cursor_no_wrap hc hKn hw hp
    rw [hmod]
    refine ⟨by simp [claimed, Event.claimIdx, List.range_succ, ← hcl], fun i => ?_⟩
    have e1 := wsum_set (pendDispatch i) ⟨Pc.dispatch, wk.IsCancel, s.AssetIndex⟩ s.workers w wk hw
    have e2 := wsum_set (pendPoll i) ⟨Pc.dispatch, wk.IsCancel, s.AssetIndex⟩ s.workers w wk hw
    have e3 := wsum_set (pendUpdate i) ⟨Pc.dispatch, wk.IsCancel, s.AssetIndex⟩ s.workers w wk hw
    obtain ⟨h1, h2, h3⟩ := h.acct i
    simp [pendDispatch, pendPoll, pendUpdate, hp] at e1 e2 e3
    simp [dispatched, polled, updated, Event.dispatchIdx, Event.statusIdx, Event.updateIdx,
      List.count_singleton] at h1 h2 h3 ⊢
    refine ⟨?_, ?_, ?_⟩ <;> split_ifs at * <;> omega
  | dispatch wk hw hp =>
    have hr := hc.inRange wk (List.getElem?_mem hw) (by simp [hp])
    refine ⟨by simpa [claimed, Event.claimIdx] using hcl, fun i => ?_⟩
    have e1 := wsum_set (pendDispatch i) ⟨Pc.poll, wk.IsCancel, wk.AssetToConvert⟩ s.workers w wk hw
    have e2 := wsum_set (pendPoll i) ⟨Pc.poll, wk.IsCancel, wk.AssetToConvert⟩ s.workers w wk hw
    have e3 := wsum_set (pendUpdate i) ⟨Pc.poll, wk.IsCancel, wk.AssetToConvert⟩ s.workers w wk hw
    obtain ⟨h1, h2, h3⟩ := h.acct i
    simp [pendDispatch, pendPoll, pendUpdate, hp] at e1 e2 e3
    simp [dispatched, polled, updated, Event.dispatchIdx, Event.statusIdx, Event.updateIdx,
      List.count_singleton] at h1 h2 h3 ⊢
    refine ⟨?_, ?_, ?_⟩ <;> split_ifs at * <;> omega
  | poll wk hw hp =>
    have hr := hc.inRange wk (List.getElem?_mem hw) (by simp [hp])
    refine ⟨by simpa [claimed, Event.claimIdx] using hcl, fun i => ?_⟩
    have e1 := wsum_set (pendDispatch i) ⟨Pc.update, t.StatusCallback s.trace (t.ExportAssets[wk.AssetToConvert]?.getD default).AssetIndex, wk.AssetToConvert⟩ s.workers w wk hw
    have e2 := wsum_set (pendPoll i) ⟨Pc.update, t.StatusCallback s.trace (t.ExportAssets[wk.AssetToConvert]?.getD default).AssetIndex, wk.AssetToConvert⟩ s.workers w wk hw
    have e3 := wsum_set (pendUpdate i) ⟨Pc.update, t.StatusCallback s.trace (t.ExportAssets[wk.AssetToConvert]?.getD default).AssetIndex, wk.AssetToConvert⟩ s.workers w wk hw
    obtain ⟨h1, h2, h3⟩ := h.acct i
    simp [pendDispatch, pendPoll, pendUpdate, hp] at e1 e2 e3
    simp [dispatched, polled, updated, Event.dispatchIdx, Event.statusIdx, Event.updateIdx,
      List.count_singleton] at h1 h2 h3 ⊢
    refine ⟨?_, ?_, ?_⟩ <;> split_ifs at * <;> omega
  | report wk hw hp hgt =>
    have hr := hc.inRange wk (List.getElem?_mem hw) (by simp [hp])
    refine ⟨by simpa [claimed, Event.claimIdx] using hcl, fun i => ?_⟩
    have e1 := wsum_set (pendDispatch i) ⟨Pc.loopCond, wk.IsCancel, wk.AssetToConvert⟩ s.workers w wk hw
    have e2 := wsum_set (pendPoll i) ⟨Pc.loopCond, wk.IsCancel, wk.AssetToConvert⟩ s.workers w wk hw
    have e3 := wsum_set (pendUpdate i) ⟨Pc.loopCond, wk.IsCancel, wk.AssetToConvert⟩ s.workers w wk hw
    obtain ⟨h1, h2, h3⟩ := h.acct i
    simp [pendDispatch, pendPoll, pendUpdate, hp] at e1 e2 e3
    simp [dispatched, polled, updated, Event.dispatchIdx, Event.statusIdx, Event.updateIdx,
      List.count_singleton] at h1 h2 h3 ⊢
    refine ⟨?_, ?_, ?_⟩ <;> split_ifs at * <;> omega
  | silent wk hw hp hle' =>
    have hr := hc.inRange wk (List.getElem?_mem hw) (by simp [hp])
    refine ⟨by simpa [claimed, Event.claimIdx] using hcl, fun i => ?_⟩
    have e1 := wsum_set (pendDispatch i) ⟨Pc.loopCond, wk.IsCancel, wk.AssetToConvert⟩ s.workers w wk hw
    have e2 := wsum_set (pendPoll i) ⟨Pc.loopCond, wk.IsCancel, wk.AssetToConvert⟩ s.workers w wk hw
    have e3 := wsum_set (pendUpdate i) ⟨Pc.loopCond, wk.IsCancel, wk.AssetToConvert⟩ s.workers w wk hw
    obtain ⟨h1, h2, h3⟩ := h.acct i
    simp [pendDispatch, pendPoll, pendUpdate, hp] at e1 e2 e3
    simp [dispatched, polled, updated, Event.dispatchIdx, Event.statusIdx, Event.updateIdx,
      List.count_singleton] at h1 h2 h3 ⊢
    refine ⟨?_, ?_, ?_⟩ <;> split_ifs at * <;> omega

theorem forall_mem_set {P : Worker → Prop} {ws : List Worker} {w : Nat} {wk' : Worker}
    (h : ∀ wk ∈ ws, P wk) (h' : P wk') : ∀ wk ∈ ws.set w wk', P wk := by
  intro wk hm
  rcases List.mem_or_eq_of_mem_set hm with hm | rfl
  · exact h wk hm
  · exact h'

theorem exit_init (t : Task) (n : Nat) : Exit t (initState n) := by
  intro wk hwk h
  simp [initState] at hwk
  rcases hwk with ⟨_, rfl⟩
  simp at h

theorem exit_step {t : Task} {n : Nat} {s s' : State} {w : Nat} (hc : Core t n s)
    (hKn : t.ExportAssets.length + n < 2 ^ 32) (h : Exit t s) (hs : Step t w s s') :
    Exit t s' := by
  unfold Exit at *
  cases hs with
  | enter wk hw hp hlt hc' => exact forall_mem_set h (by simp)
  | leave wk hw hp hc' =>
    refine forall_mem_set h ?_
    intro _
    rcases hc' with h1 | h1
    · exact Or.inr h1
    · exact Or.inl h1
  | stale wk hw hp hge =>
    obtain ⟨hmod, hbound⟩ := cursor_no_wrap hc hKn hw hp
    rw [hmod]
    refine forall_mem_set ?_ (by simp)
    intro wk' hm hd
    rcases h wk' hm hd with h1 | h1
    · exact Or.inl h1
    · exact Or.inr (by simp only []; omega)
  | claim wk hw hp hlt =>
    obtain ⟨hmod, hbound⟩ := cursor_no_wrap hc hKn hw hp
    rw [hmod]
    refine forall_mem_set ?_ (by simp)
    intro wk' hm hd
    rcases h wk' hm hd with h1 | h1
    · exact Or.inl h1
    · exact Or.inr (by simp only []; omega)
  | dispatch wk hw hp => exact forall_mem_set h (by simp)
  | poll wk hw hp => exact forall_mem_set h (by simp)
  | report wk hw hp hgt => exact forall_mem_set h (by simp)
  | silent wk hw hp hle' => exact forall_mem_set h (by simp)

theorem calm_init (n : Nat) : Calm (initState n) := by
  intro wk hwk
  simp [initState] at hwk
  rcases hwk with ⟨_, rfl⟩
  rfl

theorem calm_step {t : Task} {s s' : State} {w : Nat}
    (hnc : ∀ tr i, t.StatusCallback tr i = false) (h : Calm s) (hs : Step t w s s') :
    Calm s' := by
  unfold Calm at *
  cases hs with
  | enter wk hw hp hlt hc' => exact forall_mem_set h (h wk (List.getElem?_mem hw))
  | leave wk hw hp hc' => exact forall_mem_set h (h wk (List.getElem?_mem hw))
  | stale wk hw hp hge => exact forall_mem_set h (h wk (List.getElem?_mem hw))
  | claim wk hw hp hlt => exact forall_mem_set h (h wk (List.getElem?_mem hw))
  | dispatch wk hw hp => exact forall_mem_set h (h wk (List.getElem?_mem hw))
  | poll wk hw hp => exact forall_mem_set h (hnc _ _)
  | report wk hw hp hgt => exact forall_mem_set h (h wk (List.getElem?_mem hw))
  | silent wk hw hp hle' => exact forall_mem_set h (h wk (List.getElem?_mem hw))

theorem payload_init (t : Task) (n : Nat) : Payload t (initState n) := by
  refine ⟨by simp [initState, exporterCalls, dispatched], by simp [initState, statusCallbacks, polled], ?_⟩
  simp [initState, progressCallbacks]

theorem payload_step {t : Task} {s s' : State} {w : Nat} (h : Payload t s)
    (hs : Step t w s s') : Payload t s' := by
  obtain ⟨h1, h2, h3⟩ := h
  cases hs with
  | enter wk hw hp hlt hc' => exact ⟨h1, h2, h3⟩
  | leave wk hw hp hc' => exact ⟨h1, h2, h3⟩
  | stale wk hw hp hge =>
    refine ⟨?_, ?_, ?_⟩
    · simpa [exporterCalls, dispatched, Event.call, Event.dispatchIdx] using h1
    · simpa [statusCallbacks, polled, Event.stable, Event.statusIdx] using h2
    · simpa [progressCallbacks, Event.report] using h3
  | claim wk hw hp hlt =>
    refine ⟨?_, ?_, ?_⟩
    · simpa [exporterCalls, dispatched, Event.call, Event.dispatchIdx] using h1
    · simpa [statusCallbacks, polled, Event.stable, Event.statusIdx] using h2
    · simpa [progressCallbacks, Event.report] using h3
  | dispatch wk hw hp =>
    refine ⟨?_, ?_, ?_⟩
    · simp only [exporterCalls, dispatched, List.filterMap_append, List.map_append] at h1 ⊢
      rw [h1]
      cases hb : t.body (t.ExportAssets[wk.AssetToConvert]?.getD default) <;>
        simp [Event.call, Event.dispatchIdx, hb]
    · simpa [statusCallbacks, polled, Event.stable, Event.statusIdx] using h2
    · simpa [progressCallbacks, Event.report] using h3
  | poll wk hw hp =>
    refine ⟨?_, ?_, ?_⟩
    · simpa [exporterCalls, dispatched, Event.call, Event.dispatchIdx] using h1
    · simp only [statusCallbacks, polled, List.filterMap_append, List.map_append] at h2 ⊢
      rw [h2]
      simp [Event.stable, Event.statusIdx]
    · simpa [progressCallbacks, Event.report] using h3
  | report wk hw hp hgt =>
    refine ⟨?_, ?_, ?_⟩
    · simpa [exporterCalls, dispatched, Event.call, Event.dispatchIdx] using h1
    · simpa [statusCallbacks, polled, Event.stable, Event.statusIdx] using h2
    · intro x hx
      simp only [progressCallbacks, List.filterMap_append, List.mem_append] at hx
      rcases hx with hx | hx
      · exact h3 x hx
      · simp [Event.report] at hx
        rw [hx]
  | silent wk hw hp hle' =>
    refine ⟨?_, ?_, ?_⟩
    · simpa [exporterCalls, dispatched, Event.call, Event.dispatchIdx] using h1
    · simpa [statusCallbacks, polled, Event.stable, Event.statusIdx] using h2
    · simpa [progressCallbacks, Event.report] using h3

theorem reports_init (t : Task) (n : Nat) : Reports t (initState n) := by
  refine ⟨?_, ?_, ?_, ?_, ?_⟩ <;> simp [initState, progressCallbacks, updated]

set_option maxHeartbeats 800000 in
theorem reports_step {t : Task} {n : Nat} {s s' : State} {w : Nat} (hc : Core t n s)
    (h : Reports t s) (hs : Step t w s s') : Reports t s' := by
  obtain ⟨h1, h2, h3, h4, h5⟩ := h
  cases hs with
  | enter wk hw hp hlt hc' => exact ⟨h1, h2, h3, h4, h5⟩
  | leave wk hw hp hc' => exact ⟨h1, h2, h3, h4, h5⟩
  | stale wk hw hp hge =>
    refine ⟨?_, ?_, ?_, ?_, h5⟩
    · simpa [progressCallbacks, Event.report] using h1
    · simpa [progressCallbacks, Event.report] using h2
    · simpa [progressCallbacks, Event.report] using h3
    · simpa [updated, Event.updateIdx] using h4
  | claim wk hw hp hlt =>
    refine ⟨?_, ?_, ?_, ?_, h5⟩
    · simpa [progressCallbacks, Event.report] using h1
    · simpa [progressCallbacks, Event.report] using h2
    · simpa [progressCallbacks, Event.report] using h3
    · simpa [updated, Event.updateIdx] using h4
  | dispatch wk hw hp =>
    refine ⟨?_, ?_, ?_, ?_, h5⟩
    · simpa [progressCallbacks, Event.report] using h1
    · simpa [progressCallbacks, Event.report] using h2
    · simpa [progressCallbacks, Event.report] using h3
    · simpa [updated, Event.updateIdx] using h4
  | poll wk hw hp =>
    refine ⟨?_, ?_, ?_, ?_, h5⟩
    · simpa [progressCallbacks, Event.report] using h1
    · simpa [progressCallbacks, Event.report] using h2
    · simpa [progressCallbacks, Event.report] using h3
    · simpa [updated, Event.updateIdx] using h4
  | report wk hw hp hgt =>
    have hr := hc.inRange wk (List.getElem?_mem hw) (by simp [hp])
    refine ⟨?_, ?_, ?_, ?_, fun B hB => hB _ hr⟩
    · simp only [progressCallbacks, List.filterMap_append, List.map_append,
        List.pairwise_append] at h1 ⊢
      refine ⟨h1, by simp [Event.report], ?_⟩
      intro a ha b hb
      simp [Event.report] at hb
      have := (h2 a ha).2
      omega
    · intro p hp'
      simp only [progressCallbacks, List.filterMap_append, List.map_append,
        List.mem_append] at hp'
      rcases hp' with hp' | hp'
      · have := h2 p hp'
        simp only []
        omega
      · simp [Event.report] at hp'
        simp only []
        omega
    · right
      simp [progressCallbacks, Event.report]
    · intro x hx
      simp only [updated, List.filterMap_append, List.mem_append] at hx
      rcases hx with hx | hx
      · have := h4 x hx
        simp only []
        omega
      · simp [Event.updateIdx] at hx
        subst hx
        simp
  | silent wk hw hp hle' =>
    refine ⟨?_, ?_, ?_, ?_, h5⟩
    · simpa [progressCallbacks, Event.report] using h1
    · simpa [progressCallbacks, Event.report] using h2
    · simpa [progressCallbacks, Event.report] using h3
    · intro x hx
      simp only [updated, List.filterMap_append, List.mem_append] at hx
      rcases hx with hx | hx
      · exact h4 x hx
      · simp [Event.updateIdx] at hx
        subst hx
        exact hle'

theorem idle_init (t : Task) (n : Nat) : Idle t (initState n) := by
  intro _
  refine ⟨rfl, ?_⟩
  intro wk hwk
  simp [initState] at hwk
  rcases hwk with ⟨_, rfl⟩
  simp

theorem idle_step {t : Task} {s s' : State} {w : Nat} (h : Idle t s)
    (hs : Step t w s s') : Idle t s' := by
  intro hK
  obtain ⟨h1, h2⟩ := h hK
  cases hs with
  | enter wk hw hp hlt hc' => simp [hK] at hlt
  | leave wk hw hp hc' => exact ⟨h1, forall_mem_set h2 (by simp)⟩
  | stale wk hw hp hge =>
    have := h2 wk (List.getElem?_mem hw)
    simp [hp] at this
  | claim wk hw hp hlt => simp [hK] at hlt
  | dispatch wk hw hp =>
    have := h2 wk (List.getElem?_mem hw)
    simp [hp] at this
  | poll wk hw hp =>
    have := h2 wk (List.getElem?_mem hw)
    simp [hp] at this
  | report wk hw hp hgt =>
    have := h2 wk (List.getElem?_mem hw)
    simp [hp] at this
  | silent wk hw hp hle' =>
    have := h2 wk (List.getElem?_mem hw)
    simp [hp] at this

theorem contained_init (n : Nat) : Contained (initState n) := by
  intro w
  simp only [initState, workerEvents, List.filter_nil]
  cases h : (List.replicate n (⟨Pc.loopCond, false, 0⟩ : Worker))[w]? with
  | none => simp [Shape]
  | some wk =>
    have := List.getElem?_mem h
    simp at this
    rcases this with ⟨_, rfl⟩
    simp [Shape]

theorem workerEvents_append (w : Nat) (a b : List Event) :
    workerEvents w (a ++ b) = workerEvents w a ++ workerEvents w b := by
  simp [workerEvents]

/-- A step of worker `w` leaves the other workers and their events alone. -/
theorem shape_other {s : State} {w w0 : Nat} (wk' : Worker) (evs : List Event)
    (h : Contained s) (hne : w ≠ w0) (hev : workerEvents w0 evs = []) :
    Shape w0 (s.workers.set w wk')[w0]? (workerEvents w0 (s.trace ++ evs)) := by
  rw [workerEvents_append, hev, List.append_nil, List.getElem?_set_ne hne]
  exact h w0

theorem getElem?_set_self_of_some {ws : List Worker} {w : Nat} {wk wk' : Worker}
    (hw : ws[w]? = some wk) : (ws.set w wk')[w]? = some wk' := by
  have : w < ws.length := by
    by_contra hcon
    rw [List.getElem?_eq_none (by omega)] at hw
    cases hw
  simp [List.getElem?_set_self this]

theorem contained_step {t : Task} {s s' : State} {w : Nat} (h : Contained s)
    (hs : Step t w s s') : Contained s' := by
  intro w0
  have hw0 := h w
  cases hs with
  | enter wk hw hp hlt hc' =>
    by_cases hne : w = w0
    · subst hne
      rw [hw] at hw0
      simp only [getElem?_set_self_of_some hw]
      simp only [Shape, hp, hc'] at hw0 ⊢
      simpa using hw0
    · have := shape_other ⟨Pc.fetchAdd, wk.IsCancel, wk.AssetToConvert⟩ [] h hne
        (by simp [workerEvents])
      simpa using this
  | leave wk hw hp hc' =>
    by_cases hne : w = w0
    · subst hne
      rw [hw] at hw0
      simp only [getElem?_set_self_of_some hw]
      simp only [Shape, hp] at hw0 ⊢
      exact hw0
    · have := shape_other ⟨Pc.done, wk.IsCancel, wk.AssetToConvert⟩ [] h hne
        (by simp [workerEvents])
      simpa using this
  | stale wk hw hp hge =>
    by_cases hne : w = w0
    · subst hne
      rw [hw] at hw0
      simp only [getElem?_set_self_of_some hw]
      simp only [Shape, hp] at hw0 ⊢
      obtain ⟨hc, hl⟩ := hw0
      simp only [hc]
      rw [workerEvents_append]
      simp only [Bool.false_eq_true, if_false]
      intro e he
      rcases List.mem_append.1 he with he | he
      · exact hl e he
      · simp [workerEvents, Event.worker] at he
        subst he
        rfl
    · exact shape_other _ _ h hne (by simp [workerEvents, Event.worker, hne])
  | claim wk hw hp hlt =>
    by_cases hne : w = w0
    · subst hne
      rw [hw] at hw0
      simp only [getElem?_set_self_of_some hw]
      simp only [Shape, hp] at hw0 ⊢
      obtain ⟨hc, hl⟩ := hw0
      refine ⟨workerEvents w s.trace, ?_, hl⟩
      simp [workerEvents_append, workerEvents, Event.worker]
    · exact shape_other _ _ h hne (by simp [workerEvents, Event.worker, hne])
  | dispatch wk hw hp =>
    by_cases hne : w = w0
    · subst hne
      rw [hw] at hw0
      simp only [getElem?_set_self_of_some hw]
      simp only [Shape, hp] at hw0 ⊢
      obtain ⟨pre, hl, hpre⟩ := hw0
      refine ⟨pre, t.body (t.ExportAssets[wk.AssetToConvert]?.getD default), ?_, hpre⟩
      rw [workerEvents_append, hl]
      simp [workerEvents, Event.worker]
    · exact shape_other _ _ h hne (by simp [workerEvents, Event.worker, hne])
  | poll wk hw hp =>
    by_cases hne : w = w0
    · subst hne
      rw [hw] at hw0
      simp only [getElem?_set_self_of_some hw]
      simp only [Shape, hp] at hw0 ⊢
      obtain ⟨pre, c, hl, hpre⟩ := hw0
      refine ⟨pre, c, (t.ExportAssets[wk.AssetToConvert]?.getD default).AssetIndex, ?_, hpre⟩
      rw [workerEvents_append, hl]
      simp [workerEvents, Event.worker]
    · exact shape_other _ _ h hne (by simp [workerEvents, Event.worker, hne])
  | report wk hw hp hgt =>
    by_cases hne : w = w0
    · subst hne
      rw [hw] at hw0
      simp only [getElem?_set_self_of_some hw]
      simp only [Shape, hp] at hw0 ⊢
      obtain ⟨pre, c, st, hl, hpre⟩ := hw0
      rw [workerEvents_append, hl]
      cases hb : wk.IsCancel with
      | true =>
        simp only [if_true]
        refine ⟨pre, wk.AssetToConvert, c, st,
          NewProgress wk.AssetToConvert t.ExportAssets.length, ?_, hpre⟩
        simp [workerEvents, Event.worker]
      | false =>
        simp only [Bool.false_eq_true, if_false]
        intro e he
        simp [workerEvents, Event.worker] at he
        rcases he with he | he | he | he | he
        · exact hpre e he
        all_goals subst he; rfl
    · exact shape_other _ _ h hne (by simp [workerEvents, Event.worker, hne])
  | silent wk hw hp hle' =>
    by_cases hne : w = w0
    · subst hne
      rw [hw] at hw0
      simp only [getElem?_set_self_of_some hw]
      simp only [Shape, hp] at hw0 ⊢
      obtain ⟨pre, c, st, hl, hpre⟩ := hw0
      rw [workerEvents_append, hl]
      cases hb : wk.IsCancel with
      | true =>
        simp only [if_true]
        refine ⟨pre, wk.AssetToConvert, c, st,
          NewProgress wk.AssetToConvert t.ExportAssets.length, ?_, hpre⟩
        simp [workerEvents, Event.worker]
      | false =>
        simp only [Bool.false_eq_true, if_false]
        intro e he
        simp [workerEvents, Event.worker] at he
        rcases he with he | he | he | he | he
        · exact hpre e he
        all_goals subst he; rfl
    · exact shape_other _ _ h hne (by simp [workerEvents, Event.worker, hne])

theorem faithful_init (t : Task) (n : Nat) : Faithful t (initState n) := by
  intro e he
  simp [initState] at he

theorem faithful_step {t : Task} {n : Nat} {s s' : State} {w : Nat} (hc : Core t n s)
    (h : Faithful t s) (hs : Step t w s s') : Faithful t s' := by
  cases hs with
  | enter wk hw hp hlt hc' => exact h
  | leave wk hw hp hc' => exact h
  | stale wk hw hp hge =>
    intro e he
    simp only [List.mem_append, List.mem_singleton] at he
    rcases he with he | he
    · exact h e he
    · subst he
      trivial
  | claim wk hw hp hlt =>
    intro e he
    simp only [List.mem_append, List.mem_singleton] at he
    rcases he with he | he
    · exact h e he
    · subst he
      trivial
  | dispatch wk hw hp =>
    intro e he
    simp only [List.mem_append, List.mem_singleton] at he
    rcases he with he | he
    · exact h e he
    · subst he
      exact ⟨hc.inRange wk (List.getElem?_mem hw) (Or.inl hp), rfl⟩
  | poll wk hw hp =>
    intro e he
    simp only [List.mem_append, List.mem_singleton] at he
    rcases he with he | he
    · exact h e he
    · subst he
      exact ⟨hc.inRange wk (List.getElem?_mem hw) (Or.inr (Or.inl hp)), rfl⟩
  | report wk hw hp hgt =>
    intro e he
    simp only [List.mem_append, List.mem_cons, List.mem_singleton, List.not_mem_nil,
      or_false] at he
    rcases he with he | he | he
    · exact h e he
    · subst he
      exact ⟨hc.inRange wk (List.getElem?_mem hw) (Or.inr (Or.inr hp)), rfl⟩
    · subst he
      trivial
  | silent wk hw hp hle' =>
    intro e he
    simp only [List.mem_append, List.mem_singleton] at he
    rcases he with he | he
    · exact h e he
    · subst he
      exact ⟨hc.inRange wk (List.getElem?_mem hw) (Or.inr (Or.inr hp)), rfl⟩

theorem answers_nil (t : Task) : Answers t [] := by
  intro before w i st b after he
  cases before <;> cases he

/-- Putting one event on record keeps the answers on record right, when the new event is not
a poll or holds the answer of the callback. -/
theorem answers_snoc {t : Task} {tr : List Event} (h : Answers t tr) (e : Event)
    (he : ∀ w i st b, e = Event.status w i st b → b = t.StatusCallback tr st) :
    Answers t (tr ++ [e]) := by
  intro before w i st b after heq
  rcases List.eq_nil_or_concat after with ha | ⟨after', x, ha⟩
  · subst ha
    have h2 : tr ++ [e] = before ++ [Event.status w i st b] := heq
    obtain ⟨h3, h4⟩ := List.append_inj' h2 rfl
    subst h3
    exact he w i st b (by simpa using h4)
  · rw [List.concat_eq_append] at ha
    subst ha
    have h2 : tr ++ [e] = (before ++ Event.status w i st b :: after') ++ [x] := by
      rw [heq]
      simp
    obtain ⟨h3, _⟩ := List.append_inj' h2 rfl
    exact h before w i st b after' h3

theorem answers_init (t : Task) (n : Nat) : Answers t (initState n).trace :=
  answers_nil t

theorem answers_step {t : Task} {s s' : State} {w : Nat} (h : Answers t s.trace)
    (hs : Step t w s s') : Answers t s'.trace := by
  cases hs with
  | enter wk hw hp hlt hc' => exact h
  | leave wk hw hp hc' => exact h
  | stale wk hw hp hge => exact answers_snoc h _ (fun _ _ _ _ he => by cases he)
  | claim wk hw hp hlt => exact answers_snoc h _ (fun _ _ _ _ he => by cases he)
  | dispatch wk hw hp => exact answers_snoc h _ (fun _ _ _ _ he => by cases he)
  | poll wk hw hp =>
    refine answers_snoc h _ (fun _ _ _ _ he => ?_)
    cases he
    rfl
  | report wk hw hp hgt =>
    have h1 := answers_snoc h (Event.update w wk.AssetToConvert
      (NewProgress wk.AssetToConvert t.ExportAssets.length)) (fun _ _ _ _ he => by cases he)
    have h2 := answers_snoc h1 (Event.progress
      (NewProgress wk.AssetToConvert t.ExportAssets.length) false)
      (fun _ _ _ _ he => by cases he)
    simpa using h2
  | silent wk hw hp hle' => exact answers_snoc h _ (fun _ _ _ _ he => by cases he)

theorem inv_init (t : Task) (n : Nat) : Inv t (initState n) :=
  ⟨counts_init t n, exit_init t n, payload_init t n, reports_init t n, idle_init t n,
    contained_init n, faithful_init t n, answers_init t n, fun _ => calm_init n⟩

theorem inv_step {t : Task} {n : Nat} (hKn : t.ExportAssets.length + n < 2 ^ 32)
    (s s' : State) (w : Nat) (hc : Core t n s) (h : Inv t s) (hs : Step t w s s') :
    Inv t s' :=
  ⟨counts_step hc hKn h.counts hs, exit_step hc hKn h.exit hs, payload_step h.payload hs,
    reports_step hc h.reports hs, idle_step h.idle hs, contained_step h.contained hs,
    faithful_step hc h.faithful hs, answers_step h.answers hs,
    fun hnc => calm_step hnc (h.calm hnc) hs⟩

/-- With enough fuel `ParallelTask` returns, whatever the schedule, and what it returns is
the record of a state in which every worker has left the loop. -/
theorem parallelTask_total (t : Task) (n fuel : Nat) (sched : Nat → Nat)
    (hKn : t.ExportAssets.length + n < 2 ^ 32)
    (hfuel : 5 * t.ExportAssets.length + 8 * n ≤ fuel) :
    ∃ s, ParallelTask t n fuel sched = some s.trace ∧ Core t n s ∧ Inv t s ∧
      allDone s = true := by
  obtain ⟨s, h1, h2, h3, h4⟩ := runWorkers_total t n hKn (Inv t) (inv_step hKn) fuel sched
    (initState n) (core_init t n) (inv_init t n) (by rw [stepsLeft_init]; exact hfuel)
  exact ⟨s, by simp [ParallelTask, h1], h2, h3, h4⟩

theorem wsum_done {s : State} (hd : allDone s = true) (f : Worker → Nat)
    (hf : ∀ wk, wk.pc = Pc.done → f wk = 0) : wsum f s.workers = 0 :=
  wsum_eq_zero f s.workers (fun wk hwk => hf wk (allDone_iff.1 hd wk hwk))

theorem count_range (K i : Nat) : (List.range K).count i = if i < K then 1 else 0 := by
  split
  · rename_i h
    exact List.count_eq_one_of_mem (List.nodup_range K) (List.mem_range.2 h)
  · rename_i h
    exact List.count_eq_zero_of_not_mem (by simpa using h)

/-- When no poll answered cancel and there is at least one worker, the cursor ran to the end
of the batch. -/
theorem cursor_at_end {t : Task} {n : Nat} {s : State} (hc : Core t n s) (h : Inv t s)
    (hd : allDone s = true) (hn : 1 ≤ n) (hnc : ∀ tr i, t.StatusCallback tr i = false) :
    t.ExportAssets.length ≤ s.AssetIndex := by
  have hlen := hc.len
  obtain ⟨wk, hwk⟩ : ∃ wk, wk ∈ s.workers := by
    cases hws : s.workers with
    | nil => rw [hws] at hlen; simp at hlen; omega
    | cons a l => exact ⟨a, List.mem_cons_self _ _⟩
  rcases h.exit wk hwk (allDone_iff.1 hd wk hwk) with h1 | h1
  · rw [h.calm hnc wk hwk] at h1
    cases h1
  · exact h1

/-- At the end of an uncancelled run every stage of the loop body has run exactly once for
every index of the batch. -/
theorem stages_perm {t : Task} {n : Nat} {s : State} (hc : Core t n s) (h : Inv t s)
    (hd : allDone s = true) (hn : 1 ≤ n) (hnc : ∀ tr i, t.StatusCallback tr i = false) :
    ((dispatched s.trace).map Prod.snd).Perm (List.range t.ExportAssets.length) ∧
    ((polled s.trace).map Prod.snd).Perm (List.range t.ExportAssets.length) ∧
    ((updated s.trace).map Prod.snd).Perm (List.range t.ExportAssets.length) := by
  have hK := cursor_at_end hc h hd hn hnc
  refine ⟨?_, ?_, ?_⟩ <;> rw [List.perm_iff_count] <;> intro i <;> rw [count_range]
  · have e := (h.counts.acct i).1
    rw [wsum_done hd (pendDispatch i) (by intro wk hp; simp [pendDispatch, hp])] at e
    split_ifs at * <;> omega
  · have e := (h.counts.acct i).2.1
    rw [wsum_done hd (pendPoll i) (by intro wk hp; simp [pendPoll, hp])] at e
    split_ifs at * <;> omega
  · have e := (h.counts.acct i).2.2
    rw [wsum_done hd (pendUpdate i) (by intro wk hp; simp [pendUpdate, hp])] at e
    split_ifs at * <;> omega

theorem ilog2Aux_spec : ∀ (fuel n : Nat), n ≤ fuel → n ≠ 0 →
    2 ^ ilog2Aux fuel n ≤ n ∧ n < 2 ^ (ilog2Aux fuel n + 1)
  | 0, n, h, h0 => by omega
  | fuel + 1, n, h, h0 => by
    unfold ilog2Aux
    split
    · simp; omega
    · rename_i h2
      have ih := ilog2Aux_spec fuel (n / 2) (by omega) (by omega)
      obtain ⟨a, b⟩ := ih
      rw [pow_succ] at b ⊢
      rw [pow_succ]
      constructor <;> omega

theorem ilog2_le {x : Nat} (h0 : x ≠ 0) : 2 ^ ilog2 x ≤ x :=
  (ilog2Aux_spec x x (Nat.le_refl x) h0).1

theorem lt_ilog2 (x : Nat) : x < 2 ^ (ilog2 x + 1) := by
  by_cases h0 : x = 0
  · subst h0
    exact Nat.pow_pos (by norm_num)
  · exact (ilog2Aux_spec x x (Nat.le_refl x) h0).2

theorem ilog2_lt {x k : Nat} (h : x < 2 ^ k) (hk : 0 < k) : ilog2 x < k := by
  by_cases h0 : x = 0
  · subst h0
    simpa [ilog2, ilog2Aux] using hk
  · have := ilog2_le h0
    exact (Nat.pow_lt_pow_iff_right (by norm_num : 1 < 2)).1 (lt_of_le_of_lt this h)

theorem rne_le {n d M : Nat} (hd : 0 < d) (h : n ≤ M * d) : roundNearestEven n d ≤ M := by
  have hq : n / d ≤ M := by
    calc n / d ≤ M * d / d := Nat.div_le_div_right h
      _ = M := Nat.mul_div_cancel _ hd
  have hdm := Nat.div_add_mod n d
  have hmod := Nat.mod_lt n hd
  by_cases hr : n % d = 0
  · unfold roundNearestEven
    simp only [hr]
    rw [if_pos (by omega)]
    exact hq
  · have hlt : n / d < M := by
      by_contra hcon
      have hge : M ≤ n / d := by omega
      have : M * d ≤ d * (n / d) := by
        rw [Nat.mul_comm]
        exact Nat.mul_le_mul_left d hge
      omega
    unfold roundNearestEven
    simp only []
    split_ifs <;> omega

theorem rne_le_half {n d M : Nat} (hd : 0 < d) (h : 2 * n < (2 * M + 1) * d) :
    roundNearestEven n d ≤ M := by
  have hdm := Nat.div_add_mod n d
  have hmod := Nat.mod_lt n hd
  have hq : n / d ≤ M := by
    by_contra hcon
    have hge : M + 1 ≤ n / d := by omega
    have h1 : d * (M + 1) ≤ d * (n / d) := Nat.mul_le_mul_left d hge
    have h2 : (2 * M + 1) * d = 2 * (d * M) + d := by ring
    have h3 : d * (M + 1) = d * M + d := by ring
    omega
  by_cases hlt : n / d < M
  · unfold roundNearestEven
    simp only []
    split_ifs <;> omega
  · have he : n / d = M := by omega
    have h2 : (2 * M + 1) * d = 2 * (d * M) + d := by ring
    rw [he] at hdm
    unfold roundNearestEven
    simp only []
    rw [if_pos (by omega)]
    exact hq

theorem rne_exact {q d : Nat} (hd : 0 < d) : roundNearestEven (q * d) d = q := by
  unfold roundNearestEven
  simp [Nat.mul_div_cancel _ hd, hd]

/-- A quotient of at most `1 - 2^-24` rounds to a single precision value of at most
`1 - 2^-24`, the largest one below 1. -/
theorem f32_le_pred_one {N D : Nat} (hD : 0 < D) (h : N * 2 ^ 24 ≤ (2 ^ 24 - 1) * D) :
    (f32 N D).1 * 2 ^ 24 ≤ (2 ^ 24 - 1) * (f32 N D).2 := by
  have hND : N < D := by
    norm_num at h
    omega
  have hup : 25 ≤ 25 + ilog2 D := by omega
  have ha : N * 2 ^ (25 + ilog2 D) < D * 2 ^ (25 + ilog2 D) :=
    Nat.mul_lt_mul_of_pos_right hND (Nat.pow_pos (by norm_num))
  have hQ : N * 2 ^ (25 + ilog2 D) / D < 2 ^ (25 + ilog2 D) :=
    Nat.div_lt_of_lt_mul ha
  have hlog := ilog2_lt hQ (by omega)
  unfold f32
  simp only []
  generalize hsh : ilog2 (N * 2 ^ (25 + ilog2 D) / D) - 23 = sh
  obtain ⟨e, he⟩ : ∃ e, 25 + ilog2 D = sh + 24 + e :=
    ⟨25 + ilog2 D - sh - 24, by omega⟩
  rw [he]
  have hS : 0 < 2 ^ sh := Nat.pow_pos (by norm_num)
  have hE : 0 < 2 ^ e := Nat.pow_pos (by norm_num)
  have hpow : 2 ^ (sh + 24 + e) = 2 ^ sh * 2 ^ 24 * 2 ^ e := by
    rw [pow_add, pow_add]
  have hr : roundNearestEven (N * 2 ^ (sh + 24 + e)) (D * 2 ^ sh) ≤ (2 ^ 24 - 1) * 2 ^ e := by
    apply rne_le (Nat.mul_pos hD hS)
    rw [hpow]
    calc N * (2 ^ sh * 2 ^ 24 * 2 ^ e) = (N * 2 ^ 24) * (2 ^ sh * 2 ^ e) := by ring
      _ ≤ ((2 ^ 24 - 1) * D) * (2 ^ sh * 2 ^ e) := Nat.mul_le_mul_right _ h
      _ = (2 ^ 24 - 1) * 2 ^ e * (D * 2 ^ sh) := by ring
  calc roundNearestEven (N * 2 ^ (sh + 24 + e)) (D * 2 ^ sh) * 2 ^ sh * 2 ^ 24
      ≤ (2 ^ 24 - 1) * 2 ^ e * 2 ^ sh * 2 ^ 24 :=
        Nat.mul_le_mul_right _ (Nat.mul_le_mul_right _ hr)
    _ = (2 ^ 24 - 1) * 2 ^ (sh + 24 + e) := by rw [hpow]; ring

theorem f32_snd_pos (N D : Nat) : 0 < (f32 N D).2 := by
  unfold f32
  exact Nat.pow_pos (by norm_num)

/-- A quotient of at most `100 * (1 - 2^-24)` rounds to a single precision value below
100. -/
theorem f32_lt_100 {N D : Nat} (hD : 0 < D) (h : N * 2 ^ 24 ≤ 100 * (2 ^ 24 - 1) * D) :
    (f32 N D).1 < 100 * (f32 N D).2 := by
  have hND : N < 128 * D := by
    norm_num at h
    omega
  have hP : 0 < 2 ^ (25 + ilog2 D) := Nat.pow_pos (by norm_num)
  have ha : N * 2 ^ (25 + ilog2 D) < D * 2 ^ (25 + ilog2 D + 7) := by
    have hp7 : 2 ^ (25 + ilog2 D + 7) = 2 ^ (25 + ilog2 D) * 2 ^ 7 := pow_add _ _ _
    rw [hp7]
    calc N * 2 ^ (25 + ilog2 D) < 128 * D * 2 ^ (25 + ilog2 D) :=
          Nat.mul_lt_mul_of_pos_right hND hP
      _ = D * (2 ^ (25 + ilog2 D) * 2 ^ 7) := by ring
  have hQ : N * 2 ^ (25 + ilog2 D) / D < 2 ^ (25 + ilog2 D + 7) :=
    Nat.div_lt_of_lt_mul ha
  have hlog := ilog2_lt hQ (by omega)
  have hlt := lt_ilog2 (N * 2 ^ (25 + ilog2 D) / D)
  unfold f32
  simp only []
  generalize hsh : ilog2 (N * 2 ^ (25 + ilog2 D) / D) - 23 = sh at *
  have hS : 0 < 2 ^ sh := Nat.pow_pos (by norm_num)
  by_cases hcase : 25 + ilog2 D = sh + 17
  · rw [hcase]
    have hpow : 2 ^ (sh + 17) = 2 ^ sh * 2 ^ 17 := by rw [pow_add]
    have hr : roundNearestEven (N * 2 ^ (sh + 17)) (D * 2 ^ sh) ≤ 13107199 := by
      apply rne_le_half (Nat.mul_pos hD hS)
      rw [hpow]
      have h1 : 2 * (N * (2 ^ sh * 2 ^ 17)) = (262144 * N) * 2 ^ sh := by ring
      have h2 : (2 * 13107199 + 1) * (D * 2 ^ sh) = (26214399 * D) * 2 ^ sh := by ring
      rw [h1, h2]
      apply Nat.mul_lt_mul_of_pos_right _ hS
      norm_num at h
      omega
    rw [hpow]
    calc roundNearestEven (N * (2 ^ sh * 2 ^ 17)) (D * 2 ^ sh) * 2 ^ sh
        ≤ 13107199 * 2 ^ sh := by
          rw [← hpow]
          exact Nat.mul_le_mul_right _ hr
      _ < 13107200 * 2 ^ sh := Nat.mul_lt_mul_of_pos_right (by norm_num) hS
      _ = 100 * (2 ^ sh * 2 ^ 17) := by ring
  · obtain ⟨e, he⟩ : ∃ e, 25 + ilog2 D = sh + 18 + e :=
      ⟨25 + ilog2 D - sh - 18, by omega⟩
    have hE : 0 < 2 ^ e := Nat.pow_pos (by norm_num)
    have hr : roundNearestEven (N * 2 ^ (25 + ilog2 D)) (D * 2 ^ sh) ≤ 2 ^ 24 := by
      apply rne_le (Nat.mul_pos hD hS)
      have h1 : N * 2 ^ (25 + ilog2 D) <
          2 ^ (ilog2 (N * 2 ^ (25 + ilog2 D) / D) + 1) * D :=
        (Nat.div_lt_iff_lt_mul hD).1 hlt
      have h2 : 2 ^ (ilog2 (N * 2 ^ (25 + ilog2 D) / D) + 1) ≤ 2 ^ (sh + 24) :=
        Nat.pow_le_pow_right (by norm_num) (by omega)
      have h3 : 2 ^ (sh + 24) = 2 ^ sh * 2 ^ 24 := by rw [pow_add]
      calc N * 2 ^ (25 + ilog2 D)
          ≤ 2 ^ (ilog2 (N * 2 ^ (25 + ilog2 D) / D) + 1) * D := le_of_lt h1
        _ ≤ 2 ^ (sh + 24) * D := Nat.mul_le_mul_right _ h2
        _ = 2 ^ 24 * (D * 2 ^ sh) := by rw [h3]; ring
    have hpow : 2 ^ (25 + ilog2 D) = 2 ^ sh * 2 ^ 18 * 2 ^ e := by
      rw [he, pow_add, pow_add]
    calc roundNearestEven (N * 2 ^ (25 + ilog2 D)) (D * 2 ^ sh) * 2 ^ sh
        ≤ 2 ^ 24 * 2 ^ sh := Nat.mul_le_mul_right _ hr
      _ < 26214400 * 2 ^ sh := Nat.mul_lt_mul_of_pos_right (by norm_num) hS
      _ = 100 * (2 ^ sh * 2 ^ 18 * 1) := by ring
      _ ≤ 100 * (2 ^ sh * 2 ^ 18 * 2 ^ e) :=
        Nat.mul_le_mul_left _ (Nat.mul_le_mul_left _ hE)
      _ = 100 * 2 ^ (25 + ilog2 D) := by rw [hpow]

theorem ilog2_one : ilog2 1 = 0 := by decide

/-- The conversion of an integer of at most 24 bits to single precision is exact. -/
theorem f32OfNat_exact {n : Nat} (h : n ≤ 2 ^ 24) : f32OfNat n = (n * 2 ^ 25, 2 ^ 25) := by
  unfold f32OfNat f32
  simp only [ilog2_one, Nat.add_zero, Nat.div_one, Nat.one_mul]
  have ha : n * 2 ^ 25 < 2 ^ 50 := by
    norm_num at h ⊢
    omega
  have hlog := ilog2_lt ha (by norm_num)
  generalize hsh : ilog2 (n * 2 ^ 25) - 23 = sh
  have hS : 0 < 2 ^ sh := Nat.pow_pos (by norm_num)
  have hq : ∃ q, n * 2 ^ 25 = q * 2 ^ sh := by
    by_cases hc : sh ≤ 25
    · obtain ⟨e, he⟩ : ∃ e, 25 = sh + e := ⟨25 - sh, by omega⟩
      refine ⟨n * 2 ^ e, ?_⟩
      have : (2 : Nat) ^ 25 = 2 ^ sh * 2 ^ e := by
        rw [← pow_add, ← he]
      rw [this]
      ring
    · have hs26 : sh = 26 := by omega
      have hl : ilog2 (n * 2 ^ 25) = 49 := by omega
      have hn0 : n * 2 ^ 25 ≠ 0 := by
        intro h0
        rw [h0] at hl
        simp [ilog2, ilog2Aux] at hl
      have := ilog2_le hn0
      rw [hl] at this
      have hn : n = 2 ^ 24 := by
        norm_num at this h ⊢
        omega
      refine ⟨2 ^ 23, ?_⟩
      rw [hn, hs26]
      norm_num
  obtain ⟨q, hq⟩ := hq
  rw [hq, rne_exact hS]

/-- Up to 2^24 items every index of the batch computes to less than 100 percent. -/
theorem newProgress_lt_100 {i K : Nat} (hi : i < K) (hK : K ≤ 2 ^ 24) :
    NewProgress i K < 100 := by
  unfold NewProgress
  rw [f32OfNat_exact (by omega : i ≤ 2 ^ 24), f32OfNat_exact hK,
    f32OfNat_exact (by norm_num : 100 ≤ 2 ^ 24)]
  unfold f32Mul f32Div f32ToUInt32
  simp only []
  have hX := @f32_le_pred_one (i * 2 ^ 25 * 2 ^ 25) (2 ^ 25 * (K * 2 ^ 25))
    (Nat.mul_pos (by norm_num) (Nat.mul_pos (by omega) (by norm_num)))
    (by
      have : i * 2 ^ 24 ≤ (2 ^ 24 - 1) * K := by
        norm_num at hK ⊢
        omega
      calc i * 2 ^ 25 * 2 ^ 25 * 2 ^ 24 = (i * 2 ^ 24) * (2 ^ 25 * 2 ^ 25) := by ring
        _ ≤ ((2 ^ 24 - 1) * K) * (2 ^ 25 * 2 ^ 25) := Nat.mul_le_mul_right _ this
        _ = (2 ^ 24 - 1) * (2 ^ 25 * (K * 2 ^ 25)) := by ring)
  have hXpos := f32_snd_pos (i * 2 ^ 25 * 2 ^ 25) (2 ^ 25 * (K * 2 ^ 25))
  generalize f32 (i * 2 ^ 25 * 2 ^ 25) (2 ^ 25 * (K * 2 ^ 25)) = X at hX hXpos
  have hY := @f32_lt_100 (X.1 * (100 * 2 ^ 25)) (X.2 * 2 ^ 25)
    (Nat.mul_pos hXpos (by norm_num))
    (by
      calc X.1 * (100 * 2 ^ 25) * 2 ^ 24 = (X.1 * 2 ^ 24) * (100 * 2 ^ 25) := by ring
        _ ≤ ((2 ^ 24 - 1) * X.2) * (100 * 2 ^ 25) := Nat.mul_le_mul_right _ hX
        _ = 100 * (2 ^ 24 - 1) * (X.2 * 2 ^ 25) := by ring)
  have hYpos := f32_snd_pos (X.1 * (100 * 2 ^ 25)) (X.2 * 2 ^ 25)
  generalize f32 (X.1 * (100 * 2 ^ 25)) (X.2 * 2 ^ 25) = Y at hY hYpos
  have : Y.1 / Y.2 < 100 := Nat.div_lt_of_lt_mul (by rw [Nat.mul_comm]; exact hY)
  exact lt_of_le_of_lt (Nat.mod_le _ _) this

/-- A quotient of at most 1 rounds to a single precision value of at most 1. -/
theorem f32_le_one {N D : Nat} (hD : 0 < D) (h : N ≤ D) : (f32 N D).1 ≤ (f32 N D).2 := by
  have hP : 0 < 2 ^ (25 + ilog2 D) := Nat.pow_pos (by norm_num)
  have ha : N * 2 ^ (25 + ilog2 D) < D * 2 ^ (25 + ilog2 D + 1) := by
    have hp1 : 2 ^ (25 + ilog2 D + 1) = 2 ^ (25 + ilog2 D) * 2 := pow_succ _ _
    rw [hp1]
    calc N * 2 ^ (25 + ilog2 D) ≤ D * 2 ^ (25 + ilog2 D) := Nat.mul_le_mul_right _ h
      _ < D * (2 ^ (25 + ilog2 D) * 2) := by
        apply Nat.mul_lt_mul_of_pos_left _ hD
        omega
  have hQ : N * 2 ^ (25 + ilog2 D) / D < 2 ^ (25 + ilog2 D + 1) :=
    Nat.div_lt_of_lt_mul ha
  have hlog := ilog2_lt hQ (by omega)
  unfold f32
  simp only []
  generalize hsh : ilog2 (N * 2 ^ (25 + ilog2 D) / D) - 23 = sh
  obtain ⟨e, he⟩ : ∃ e, 25 + ilog2 D = sh + e := ⟨25 + ilog2 D - sh, by omega⟩
  rw [he]
  have hS : 0 < 2 ^ sh := Nat.pow_pos (by norm_num)
  have hpow : 2 ^ (sh + e) = 2 ^ sh * 2 ^ e := pow_add _ _ _
  have hr : roundNearestEven (N * 2 ^ (sh + e)) (D * 2 ^ sh) ≤ 2 ^ e := by
    apply rne_le (Nat.mul_pos hD hS)
    rw [hpow]
    calc N * (2 ^ sh * 2 ^ e) ≤ D * (2 ^ sh * 2 ^ e) := Nat.mul_le_mul_right _ h
      _ = 2 ^ e * (D * 2 ^ sh) := by ring
  calc roundNearestEven (N * 2 ^ (sh + e)) (D * 2 ^ sh) * 2 ^ sh
      ≤ 2 ^ e * 2 ^ sh := Nat.mul_le_mul_right _ hr
    _ = 2 ^ (sh + e) := by rw [hpow]; ring

/-- A quotient of at most 100 rounds to a single precision value of at most 100. -/
theorem f32_le_100 {N D : Nat} (hD : 0 < D) (h : N ≤ 100 * D) :
    (f32 N D).1 ≤ 100 * (f32 N D).2 := by
  have hP : 0 < 2 ^ (25 + ilog2 D) := Nat.pow_pos (by norm_num)
  have ha : N * 2 ^ (25 + ilog2 D) < D * 2 ^ (25 + ilog2 D + 7) := by
    have hp7 : 2 ^ (25 + ilog2 D + 7) = 2 ^ (25 + ilog2 D) * 2 ^ 7 := pow_add _ _ _
    rw [hp7]
    calc N * 2 ^ (25 + ilog2 D) ≤ 100 * D * 2 ^ (25 + ilog2 D) := Nat.mul_le_mul_right _ h
      _ < 128 * D * 2 ^ (25 + ilog2 D) := by
        apply Nat.mul_lt_mul_of_pos_right _ hP
        omega
      _ = D * (2 ^ (25 + ilog2 D) * 2 ^ 7) := by ring
  have hQ : N * 2 ^ (25 + ilog2 D) / D < 2 ^ (25 + ilog2 D + 7) :=
    Nat.div_lt_of_lt_mul ha
  have hlog := ilog2_lt hQ (by omega)
  unfold f32
  simp only []
  generalize hsh : ilog2 (N * 2 ^ (25 + ilog2 D) / D) - 23 = sh
  obtain ⟨e, he⟩ : ∃ e, 25 + ilog2 D = sh + e := ⟨25 + ilog2 D - sh, by omega⟩
  rw [he]
  have hS : 0 < 2 ^ sh := Nat.pow_pos (by norm_num)
  have hpow : 2 ^ (sh + e) = 2 ^ sh * 2 ^ e := pow_add _ _ _
  have hr : roundNearestEven (N * 2 ^ (sh + e)) (D * 2 ^ sh) ≤ 100 * 2 ^ e := by
    apply rne_le (Nat.mul_pos hD hS)
    rw [hpow]
    calc N * (2 ^ sh * 2 ^ e) ≤ 100 * D * (2 ^ sh * 2 ^ e) := Nat.mul_le_mul_right _ h
      _ = 100 * 2 ^ e * (D * 2 ^ sh) := by ring
  calc roundNearestEven (N * 2 ^ (sh + e)) (D * 2 ^ sh) * 2 ^ sh
      ≤ 100 * 2 ^ e * 2 ^ sh := Nat.mul_le_mul_right _ hr
    _ = 100 * 2 ^ (sh + e) := by rw [hpow]; ring

set_option maxRecDepth 100000 in
/-- In single precision 16777217 is not representable: the conversion gives 16777216. -/
theorem f32OfNat_16777217 : f32OfNat 16777217 = (16777216 * 2 ^ 25, 2 ^ 25) := by decide

set_option maxRecDepth 100000 in
/-- For a batch of 16777217 items the last index computes to exactly 100 percent. -/
theorem newProgress_last : NewProgress 16777216 (16777216 + 1) = 100 := by decide

/-- For a batch of 16777217 items no index computes to more than 100 percent. -/
theorem newProgress_le_100 {i : Nat} (hi : i < 16777216 + 1) :
    NewProgress i (16777216 + 1) ≤ 100 := by
  unfold NewProgress
  rw [f32OfNat_exact (by norm_num; omega : i ≤ 2 ^ 24), f32OfNat_16777217,
    f32OfNat_exact (by norm_num : 100 ≤ 2 ^ 24)]
  unfold f32Mul f32Div f32ToUInt32
  simp only []
  have hX := @f32_le_one (i * 2 ^ 25 * 2 ^ 25) (2 ^ 25 * (16777216 * 2 ^ 25))
    (by norm_num)
    (by
      have : i ≤ 16777216 := by omega
      calc i * 2 ^ 25 * 2 ^ 25 = i * (2 ^ 25 * 2 ^ 25) := by ring
        _ ≤ 16777216 * (2 ^ 25 * 2 ^ 25) := Nat.mul_le_mul_right _ this
        _ = 2 ^ 25 * (16777216 * 2 ^ 25) := by ring)
  have hXpos := f32_snd_pos (i * 2 ^ 25 * 2 ^ 25) (2 ^ 25 * (16777216 * 2 ^ 25))
  generalize f32 (i * 2 ^ 25 * 2 ^ 25) (2 ^ 25 * (16777216 * 2 ^ 25)) = X at hX hXpos
  have hY := @f32_le_100 (X.1 * (100 * 2 ^ 25)) (X.2 * 2 ^ 25)
    (Nat.mul_pos hXpos (by norm_num))
    (by
      calc X.1 * (100 * 2 ^ 25) ≤ X.2 * (100 * 2 ^ 25) := Nat.mul_le_mul_right _ hX
        _ = 100 * (X.2 * 2 ^ 25) := by ring)
  have hYpos := f32_snd_pos (X.1 * (100 * 2 ^ 25)) (X.2 * 2 ^ 25)
  generalize f32 (X.1 * (100 * 2 ^ 25)) (X.2 * 2 ^ 25) = Y at hY hYpos
  have : Y.1 / Y.2 ≤ 100 := by
    calc Y.1 / Y.2 ≤ 100 * Y.2 / Y.2 := Nat.div_le_div_right hY
      _ = 100 := Nat.mul_div_cancel _ hYpos
  exact le_trans (Nat.mod_le _ _) this

/-! ## The claims about the two batch exports -/

theorem rpak_eq (Combine : String → String → String) (ExportPath : String)
    (Assets : Nat → RpakAssetType) (ExportAssets : List ExportAsset)
    (StatusCallback : List Event → Nat → Bool) (n fuel : Nat) (sched : Nat → Nat)
    (fs : List String) (tr : List Event)
    (h : ParallelTask ⟨ExportAssets, rpakBody Combine ExportPath Assets, StatusCallback⟩
      n fuel sched = some tr) :
    ExportRpakAssets Combine ExportPath Assets ExportAssets StatusCallback n fuel sched fs =
      some (rpakDirectories Combine ExportPath fs, tr ++ [Event.progress 100 true]) := by
  simp [ExportRpakAssets, h]

theorem miles_eq (Combine : String → String → String) (ExportPath : String)
    (Names : Nat → String) (ExportAssets : List ExportAsset)
    (StatusCallback : List Event → Nat → Bool) (n fuel : Nat) (sched : Nat → Nat)
    (fs : List String) (tr : List Event)
    (h : ParallelTask ⟨ExportAssets, milesBody Combine ExportPath Names, StatusCallback⟩
      n fuel sched = some tr) :
    ExportMilesAssets Combine ExportPath Names ExportAssets StatusCallback n fuel sched fs =
      some (CreateDirectory fs (Combine ExportPath "sounds"),
        tr ++ [Event.progress 100 true]) := by
  simp [ExportMilesAssets, h]

/-- At the end of a run, a poll that answered cancel is the last but one event of its worker:
before it come the claim and the exporter dispatch of the same item, after it only the
progress block of that item. -/
theorem cancel_tail {s : State} (h : Contained s) (hd : allDone s = true) {w i st : Nat}
    (hm : Event.status w i st true ∈ s.trace) :
    ∃ pre c p, workerEvents w s.trace =
        pre ++ [Event.claim w i, Event.dispatch w i c, Event.status w i st true,
          Event.update w i p] ∧
      ∀ e ∈ pre, e.isCancel = false := by
  have hmem : Event.status w i st true ∈ workerEvents w s.trace := by
    simp [workerEvents, hm, Event.worker]
  have hs := h w
  cases hw : s.workers[w]? with
  | none =>
    rw [hw] at hs
    simp only [Shape] at hs
    rw [hs] at hmem
    cases hmem
  | some wk =>
    rw [hw] at hs
    have hp := allDone_iff.1 hd wk (List.getElem?_mem hw)
    simp only [Shape, hp] at hs
    split at hs
    · obtain ⟨pre, i', c, st', p, hl, hpre⟩ := hs
      rw [hl] at hmem
      simp only [List.mem_append, List.mem_cons, List.mem_singleton] at hmem
      rcases hmem with hmem | hmem | hmem | hmem | hmem | hmem
      · have := hpre _ hmem
        simp [Event.isCancel] at this
      · cases hmem
      · cases hmem
      · cases hmem
        exact ⟨pre, c, p, hl, hpre⟩
      · cases hmem
      · cases hmem
    · have := hs _ hmem
      simp [Event.isCancel] at this

theorem workerEvents_final (w : Nat) (tr : List Event) :
    workerEvents w (tr ++ [Event.progress 100 true]) = workerEvents w tr := by
  simp [workerEvents, Event.worker]

/-- The events of a worker before and after a poll of its own that answered cancel, at the
end of a run: before the poll its events end with the claim of the polled index and the
exporter dispatch of the item at that index, no earlier poll of the worker answered cancel,
and after the poll the worker has one event, the progress block of that index. The callback
did return cancel when it was asked. -/
theorem cancel_split {t : Task} {s : State} (h : Inv t s) (hd : allDone s = true)
    {before after : List Event} {w i st : Nat}
    (hsplit : s.trace = before ++ Event.status w i st true :: after) :
    t.StatusCallback before st = true ∧
    ∃ a pre, t.ExportAssets[i]? = some a ∧ st = a.AssetIndex ∧
      workerEvents w before = pre ++ [Event.claim w i, Event.dispatch w i (t.body a)] ∧
      (∀ e ∈ pre, e.isCancel = false) ∧
      workerEvents w after = [Event.update w i (NewProgress i t.ExportAssets.length)] := by
  have hm : Event.status w i st true ∈ s.trace := by
    rw [hsplit]
    simp
  obtain ⟨pre, c, p, hl, hpre⟩ := cancel_tail h.contained hd hm
  have hsub : ∀ e, e ∈ workerEvents w s.trace → e ∈ s.trace := by
    intro e he
    exact (List.mem_filter.1 he).1
  have hgd : Genuine t (Event.dispatch w i c) := h.faithful _ (hsub _ (by rw [hl]; simp))
  have hgs : Genuine t (Event.status w i st true) := h.faithful _ hm
  have hgu : Genuine t (Event.update w i p) := h.faithful _ (hsub _ (by rw [hl]; simp))
  obtain ⟨hi, hc⟩ := hgd
  obtain ⟨_, hst⟩ := hgs
  obtain ⟨_, hp⟩ := hgu
  have hget : t.ExportAssets[i]? = some (t.ExportAssets[i]) := List.getElem?_eq_getElem hi
  rw [hget] at hc hst
  simp only [Option.getD_some] at hc hst
  subst hc
  subst hp
  have hw : workerEvents w s.trace =
      workerEvents w before ++ Event.status w i st true :: workerEvents w after := by
    rw [hsplit, workerEvents_append]
    simp [workerEvents, Event.worker]
  have hP : ∀ e ∈ pre ++ [Event.claim w i, Event.dispatch w i (t.body t.ExportAssets[i])],
      e.isCancel = false := by
    intro e he
    simp only [List.mem_append, List.mem_cons, List.mem_singleton, List.not_mem_nil,
      or_false] at he
    rcases he with he | he | he
    · exact hpre e he
    · subst he
      rfl
    · subst he
      rfl
  have heq : workerEvents w before ++ Event.status w i st true :: workerEvents w after =
      (pre ++ [Event.claim w i, Event.dispatch w i (t.body t.ExportAssets[i])]) ++
        Event.status w i st true ::
          [Event.update w i (NewProgress i t.ExportAssets.length)] := by
    rw [← hw, hl]
    simp
  refine ⟨(h.answers before w i st true after hsplit).symm, t.ExportAssets[i], pre, hget, hst,
    ?_⟩
  rcases List.append_eq_append_iff.1 heq with ⟨a', h1, h2⟩ | ⟨c', h1, h2⟩
  · cases a' with
    | nil =>
      simp only [List.nil_append, List.cons.injEq, true_and] at h2
      simp only [List.append_nil] at h1
      exact ⟨h1.symm, hpre, h2⟩
    | cons x a'' =>
      simp only [List.cons_append, List.cons.injEq] at h2
      obtain ⟨hx, _⟩ := h2
      have := hP (Event.status w i st true) (by rw [h1, hx]; simp)
      simp [Event.isCancel] at this
  · cases c' with
    | nil =>
      simp only [List.nil_append, List.cons.injEq, true_and] at h2
      simp only [List.append_nil] at h1
      exact ⟨h1, hpre, h2.symm⟩
    | cons x c'' =>
      simp only [List.cons_append, List.cons.injEq] at h2
      obtain ⟨_, h2⟩ := h2
      cases c'' with
      | nil =>
        simp only [List.nil_append, List.cons.injEq] at h2
        obtain ⟨h2, _⟩ := h2
        cases h2
      | cons y c3 =>
        simp only [List.cons_append, List.cons.injEq] at h2
        obtain ⟨_, h2⟩ := h2
        cases c3 <;> simp at h2

/-- A poll on the record of an export is on the record of its workers: the final progress
callback comes last. -/
theorem split_final {tr before after : List Event} {w i st : Nat}
    (h : tr ++ [Event.progress 100 true] = before ++ Event.status w i st true :: after) :
    ∃ rest, after = rest ++ [Event.progress 100 true] ∧
      tr = before ++ Event.status w i st true :: rest := by
  rcases List.eq_nil_or_concat after with ha | ⟨rest, x, ha⟩
  · subst ha
    obtain ⟨_, h4⟩ := List.append_inj' h rfl
    simp at h4
  · rw [List.concat_eq_append] at ha
    subst ha
    have h2 : tr ++ [Event.progress 100 true] =
        (before ++ Event.status w i st true :: rest) ++ [x] := by
      rw [h]
      simp
    obtain ⟨h3, h4⟩ := List.append_inj' h2 rfl
    simp only [List.cons.injEq, and_true] at h4
    exact ⟨rest, by rw [h4], h3⟩

/-- C4. In `ExportRpakAssets` and `ExportMilesAssets`, for every batch, callback, worker
count and schedule, the run returns, and at every poll on its record that answered cancel,
made by worker `w` for the item it claimed at index `i`: the status callback did return true
when it was asked about the stable index of that item; before the poll, the events of `w` end
with the claim of `i` and the exporter dispatch of the item at index `i`, which for
`ExportRpakAssets` is the exporter call of the switch for the kind of the item (no call for a
kind without a case) and for `ExportMilesAssets` the call of `ExtractAsset` into
`sounds/<name>.wav`, and no earlier poll of `w` answered cancel; after the poll, `w` has one
event only, the progress block of `i` with the percentage of `i`. So the item was exported in
full before the poll, its progress update is still performed, and `w` claims nothing,
exports nothing and polls nothing afterwards. -/
theorem cancellation_containment (Combine : String → String → String)
    (ExportPath : String) (Assets : Nat → RpakAssetType) (Names : Nat → String)
    (ExportAssets : List ExportAsset) (StatusCallback : List Event → Nat → Bool)
    (n fuel : Nat) (sched : Nat → Nat) (fs : List String)
    (hKn : ExportAssets.length + n < 2 ^ 32)
    (hfuel : 5 * ExportAssets.length + 8 * n ≤ fuel) :
    (∀ a : ExportAsset,
      (Assets a.AssetHash = RpakAssetType.Texture →
        rpakBody Combine ExportPath Assets a =
          some (ExporterCall.ExportTexture a.AssetHash (Combine ExportPath "images") true)) ∧
      (Assets a.AssetHash = RpakAssetType.UIIA →
        rpakBody Combine ExportPath Assets a =
          some (ExporterCall.ExportUIIA a.AssetHash (Combine ExportPath "images"))) ∧
      (Assets a.AssetHash = RpakAssetType.Material →
        rpakBody Combine ExportPath Assets a =
          some (ExporterCall.ExportMaterial a.AssetHash (Combine ExportPath "materials"))) ∧
      (Assets a.AssetHash = RpakAssetType.Model →
        rpakBody Combine ExportPath Assets a =
          some (ExporterCall.ExportModel a.AssetHash (Combine ExportPath "models")
            (Combine ExportPath "animations"))) ∧
      (Assets a.AssetHash = RpakAssetType.AnimationRig →
        rpakBody Combine ExportPath Assets a =
          some (ExporterCall.ExportAnimationRig a.AssetHash
            (Combine ExportPath "animations"))) ∧
      (Assets a.AssetHash = RpakAssetType.DataTable →
        rpakBody Combine ExportPath Assets a =
          some (ExporterCall.ExportDataTable a.AssetHash
            (Combine ExportPath "datatables"))) ∧
      (Assets a.AssetHash = RpakAssetType.Subtitles →
        rpakBody Combine ExportPath Assets a =
          some (ExporterCall.ExportSubtitles a.AssetHash
            (Combine ExportPath "subtitles"))) ∧
      (∀ tag, Assets a.AssetHash = RpakAssetType.Other tag →
        rpakBody Combine ExportPath Assets a = none)) ∧
    (∃ dirs tr,
      ExportRpakAssets Combine ExportPath Assets ExportAssets StatusCallback n fuel sched fs =
        some (dirs, tr) ∧
      ∀ before w i st after, tr = before ++ Event.status w i st true :: after →
        StatusCallback before st = true ∧
        ∃ a pre, ExportAssets[i]? = some a ∧ st = a.AssetIndex ∧
          workerEvents w before = pre ++ [Event.claim w i,
            Event.dispatch w i (rpakBody Combine ExportPath Assets a)] ∧
          (∀ e ∈ pre, e.isCancel = false) ∧
          workerEvents w after =
            [Event.update w i (NewProgress i ExportAssets.length)]) ∧
    (∃ dirs tr,
      ExportMilesAssets Combine ExportPath Names ExportAssets StatusCallback n fuel sched fs =
        some (dirs, tr) ∧
      ∀ before w i st after, tr = before ++ Event.status w i st true :: after →
        StatusCallback before st = true ∧
        ∃ a pre, ExportAssets[i]? = some a ∧ st = a.AssetIndex ∧
          workerEvents w before = pre ++ [Event.claim w i,
            Event.dispatch w i (some (ExporterCall.ExtractAsset a.AssetHash
              (Combine (Combine ExportPath "sounds") (Names a.AssetHash ++ ".wav"))))] ∧
          (∀ e ∈ pre, e.isCancel = false) ∧
          workerEvents w after =
            [Event.update w i (NewProgress i ExportAssets.length)]) := by
  refine ⟨?_, ?_, ?_⟩
  · intro a
    refine ⟨?_, ?_, ?_, ?_, ?_, ?_, ?_, ?_⟩ <;> intros <;> simp [rpakBody, *]
  · obtain ⟨s, h1, _, h3, h4⟩ := parallelTask_total
      ⟨ExportAssets, rpakBody Combine ExportPath Assets, StatusCallback⟩ n fuel sched hKn hfuel
    refine ⟨_, _, rpak_eq _ _ _ _ _ _ _ _ fs _ h1, ?_⟩
    intro before w i st after hsplit
    obtain ⟨rest, hafter, htr⟩ := split_final hsplit
    rw [hafter, workerEvents_final]
    exact cancel_split h3 h4 htr
  · obtain ⟨s, h1, _, h3, h4⟩ := parallelTask_total
      ⟨ExportAssets, milesBody Combine ExportPath Names, StatusCallback⟩ n fuel sched hKn hfuel
    refine ⟨_, _, miles_eq _ _ _ _ _ _ _ _ fs _ h1, ?_⟩
    intro before w i st after hsplit
    obtain ⟨rest, hafter, htr⟩ := split_final hsplit
    rw [hafter, workerEvents_final]
    exact cancel_split h3 h4 htr

set_option maxRecDepth 100000 in
/-- C4 at the sample batch, two workers taking turns, a callback that answers cancel for the
stable index 10, which is that of the first item. Worker 0 claims index 0, exports the model
(the audio file in `ExportMilesAssets`), is told to cancel, runs the progress block of index 0
and does nothing more; worker 1 does the rest of the batch. -/
theorem cancellation_containment_witness :
    (sampleBatch.length + 2 < 2 ^ 32 ∧ 5 * sampleBatch.length + 8 * 2 ≤ 36) ∧
    ((∃ dirs tr,
      ExportRpakAssets sampleCombine "out" sampleAssets sampleBatch (cancelAt 10) 2 36
        alternate [] = some (dirs, tr) ∧
      ∀ before w i st after, tr = before ++ Event.status w i st true :: after →
        cancelAt 10 before st = true ∧
        ∃ a pre, sampleBatch[i]? = some a ∧ st = a.AssetIndex ∧
          workerEvents w before = pre ++ [Event.claim w i,
            Event.dispatch w i (rpakBody sampleCombine "out" sampleAssets a)] ∧
          (∀ e ∈ pre, e.isCancel = false) ∧
          workerEvents w after =
            [Event.update w i (NewProgress i sampleBatch.length)]) ∧
    (∃ dirs tr,
      ExportMilesAssets sampleCombine "out" sampleNames sampleBatch (cancelAt 10) 2 36
        alternate [] = some (dirs, tr) ∧
      ∀ before w i st after, tr = before ++ Event.status w i st true :: after →
        cancelAt 10 before st = true ∧
        ∃ a pre, sampleBatch[i]? = some a ∧ st = a.AssetIndex ∧
          workerEvents w before = pre ++ [Event.claim w i,
            Event.dispatch w i (some (ExporterCall.ExtractAsset a.AssetHash
              (sampleCombine (sampleCombine "out" "sounds")
                (sampleNames a.AssetHash ++ ".wav"))))] ∧
          (∀ e ∈ pre, e.isCancel = false) ∧
          workerEvents w after =
            [Event.update w i (NewProgress i sampleBatch.length)])) ∧
    (ExportRpakAssets sampleCombine "out" sampleAssets sampleBatch (cancelAt 10) 2 36
        alternate []).map (fun r => workerEvents 0 r.2) =
      some [Event.claim 0 0,
        Event.dispatch 0 0 (some (ExporterCall.ExportModel 1 "out/models" "out/animations")),
        Event.status 0 0 10 true, Event.update 0 0 0] ∧
    (ExportMilesAssets sampleCombine "out" sampleNames sampleBatch (cancelAt 10) 2 36
        alternate []).map (fun r => workerEvents 0 r.2) =
      some [Event.claim 0 0,
        Event.dispatch 0 0 (some (ExporterCall.ExtractAsset 1 "out/sounds/intro.wav")),
        Event.status 0 0 10 true, Event.update 0 0 0] ∧
    (ExportRpakAssets sampleCombine "out" sampleAssets sampleBatch (cancelAt 10) 2 36
        alternate []).map (fun r => (dispatched r.2).map Prod.snd) = some [0, 1, 2, 3] :=
  ⟨by decide, (cancellation_containment sampleCombine "out" sampleAssets sampleNames
    sampleBatch (cancelAt 10) 2 36 alternate [] (by decide) (by decide)).2,
    by decide, by decide, by decide⟩

/-- C5. For the empty batch and every worker count, callback and schedule,
`ExportRpakAssets` and `ExportMilesAssets` return a record with exactly one event, the
progress callback `(100, final = true)`: no exporter call and no status callback happens. -/
theorem empty_batch (Combine : String → String → String) (ExportPath : String)
    (Assets : Nat → RpakAssetType) (Names : Nat → String)
    (StatusCallback : List Event → Nat → Bool) (n fuel : Nat) (sched : Nat → Nat)
    (fs : List String) (hn : n < 2 ^ 32) (hfuel : 8 * n ≤ fuel) :
    (∃ dirs, ExportRpakAssets Combine ExportPath Assets [] StatusCallback n fuel sched fs =
        some (dirs, [Event.progress 100 true])) ∧
    (∃ dirs, ExportMilesAssets Combine ExportPath Names [] StatusCallback n fuel sched fs =
        some (dirs, [Event.progress 100 true])) := by
  constructor
  · obtain ⟨s, h1, _, h3, _⟩ := parallelTask_total
      ⟨[], rpakBody Combine ExportPath Assets, StatusCallback⟩ n fuel sched
      (by simpa using hn) (by simpa using hfuel)
    have := (h3.idle rfl).1
    rw [this] at h1
    exact ⟨_, rpak_eq _ _ _ _ _ _ _ _ fs _ h1⟩
  · obtain ⟨s, h1, _, h3, _⟩ := parallelTask_total
      ⟨[], milesBody Combine ExportPath Names, StatusCallback⟩ n fuel sched
      (by simpa using hn) (by simpa using hfuel)
    have := (h3.idle rfl).1
    rw [this] at h1
    exact ⟨_, miles_eq _ _ _ _ _ _ _ _ fs _ h1⟩

/-- C5 with two workers. -/
theorem empty_batch_witness :
    (2 < 2 ^ 32 ∧ 8 * 2 ≤ 16) ∧
    (∃ dirs, ExportRpakAssets sampleCombine "out" sampleAssets [] neverCancel 2 16
        alternate [] = some (dirs, [Event.progress 100 true])) ∧
    (∃ dirs, ExportMilesAssets sampleCombine "out" sampleNames [] neverCancel 2 16
        alternate [] = some (dirs, [Event.progress 100 true])) :=
  ⟨by decide, empty_batch sampleCombine "out" sampleAssets sampleNames neverCancel 2 16
    alternate [] (by decide) (by decide)⟩

/-- When the last index of the batch computes to 100 percent and no index to more, an
uncancelled run delivers the progress report `(100, false)`. -/
theorem report_reaches_100 (t : Task) (n fuel : Nat) (sched : Nat → Nat) (K : Nat)
    (hK : t.ExportAssets.length = K + 1) (h100 : NewProgress K (K + 1) = 100)
    (hcap : ∀ i, i < K + 1 → NewProgress i (K + 1) ≤ 100) (hn : 1 ≤ n)
    (hnc : ∀ tr i, t.StatusCallback tr i = false)
    (hKn : K + 1 + n < 2 ^ 32)
    (hfuel : 5 * (K + 1) + 8 * n ≤ fuel) :
    ∃ tr, ParallelTask t n fuel sched = some tr ∧ (100, false) ∈ progressCallbacks tr := by
  obtain ⟨s, h1, h2, h3, h4⟩ := parallelTask_total t n fuel sched
    (by rw [hK]; exact hKn) (by rw [hK]; exact hfuel)
  obtain ⟨_, _, p3⟩ := stages_perm h2 h3 h4 hn hnc
  have hmem : K ∈ (updated s.trace).map Prod.snd :=
    p3.mem_iff.2 (List.mem_range.2 (by omega))
  obtain ⟨x, hx, hxK⟩ := List.mem_map.1 hmem
  have hcov := h3.reports.covers x hx
  rw [hxK, hK, h100] at hcov
  have hle : s.CurrentProgress ≤ 100 := by
    apply h3.reports.capped 100
    intro i hi
    rw [hK] at hi ⊢
    exact hcap i hi
  have hcp : s.CurrentProgress = 100 := by omega
  refine ⟨_, h1, ?_⟩
  rcases h3.reports.last with h0 | h0
  · omega
  · obtain ⟨y, hy, hy1⟩ := List.mem_map.1 h0
    have := h3.payload.notFinal y hy
    have hyeq : y = (100, false) := by
      cases y
      simp only at hy1 this
      rw [hy1, this, hcp]
    rw [← hyeq]
    exact hy

/-- C3, at the failing input. A batch of 16777217 items, one worker, no cancellation: the run
returns, and before the final `(100, true)` it delivers the progress report `(100, false)`,
so the value 100 is delivered twice and the percentages are not strictly increasing. In
binary32 `(float)16777217` is 16777216, so index 16777216 computes to exactly 100 percent. -/
theorem progress_not_strictly_increasing :
    ∃ dirs tr,
      ExportRpakAssets sampleCombine "out" (fun _ => RpakAssetType.Model)
        (List.replicate 16777217 ⟨0, 0⟩) neverCancel 1 83886093 (fun _ => 0) [] =
        some (dirs, tr ++ [Event.progress 100 true]) ∧
      (100, false) ∈ progressCallbacks tr ∧
      ¬ ((progressCallbacks (tr ++ [Event.progress 100 true])).map Prod.fst).Pairwise
        (fun a b => a < b) := by
  have hlen : (List.replicate 16777217 (⟨0, 0⟩ : ExportAsset)).length = 16777216 + 1 :=
    List.length_replicate _ _
  obtain ⟨tr, h1, hmem⟩ := report_reaches_100
    ⟨List.replicate 16777217 ⟨0, 0⟩,
      rpakBody sampleCombine "out" (fun _ => RpakAssetType.Model), neverCancel⟩
    1 83886093 (fun _ => 0) 16777216 hlen newProgress_last (fun i hi => newProgress_le_100 hi)
    (by decide) (fun _ _ => rfl) (by norm_num) (by norm_num)
  refine ⟨_, tr, rpak_eq _ _ _ _ _ _ _ _ [] _ h1, hmem, ?_⟩
  intro hpw
  simp only [progressCallbacks, List.filterMap_append, List.map_append,
    List.pairwise_append] at hpw
  have := hpw.2.2 100 (List.mem_map.2 ⟨(100, false), hmem, rfl⟩) 100
    (by simp [Event.report])
  omega

/-! ## Directory creation -/

theorem mem_CreateDirectory (fs : List String) (p d : String) :
    d ∈ CreateDirectory fs p ↔ d ∈ fs ∨ d = p := by
  unfold CreateDirectory
  split
  · rename_i h
    constructor
    · exact Or.inl
    · rintro (h1 | h1)
      · exact h1
      · rw [h1]; exact h
  · simp

/-- C8, the claim as the spec states it, refuted: exporting the empty batch into a
destination with no directories leaves six directories behind. -/
theorem six_directories_without_assets :
    ExportRpakAssets sampleCombine "out" sampleAssets [] neverCancel 2 16 alternate [] =
      some (["out/images", "out/materials", "out/models", "out/animations", "out/subtitles",
        "out/datatables"], [Event.progress 100 true]) ∧
    ["out/images", "out/materials", "out/models", "out/animations", "out/subtitles",
        "out/datatables"] ≠ ([] : List String) := by
  decide

/-- C8, amended. `ExportRpakAssets` creates the six category directories images, materials,
models, animations, subtitles and datatables under the destination root, whatever the batch
holds and also when it is empty: afterwards exactly the directories that existed before and
these six exist. Creating them again changes nothing, and for an empty batch the only event
is the final progress callback. -/
theorem directories_created (Combine : String → String → String) (ExportPath : String)
    (Assets : Nat → RpakAssetType) (ExportAssets : List ExportAsset)
    (StatusCallback : List Event → Nat → Bool) (n fuel : Nat) (sched : Nat → Nat)
    (fs : List String) (hKn : ExportAssets.length + n < 2 ^ 32)
    (hfuel : 5 * ExportAssets.length + 8 * n ≤ fuel) :
    ∃ dirs tr,
      ExportRpakAssets Combine ExportPath Assets ExportAssets StatusCallback n fuel sched fs =
        some (dirs, tr) ∧
      (∀ d, d ∈ dirs ↔ d ∈ fs ∨ d = Combine ExportPath "images" ∨
        d = Combine ExportPath "materials" ∨ d = Combine ExportPath "models" ∨
        d = Combine ExportPath "animations" ∨ d = Combine ExportPath "subtitles" ∨
        d = Combine ExportPath "datatables") ∧
      rpakDirectories Combine ExportPath dirs = dirs ∧
      (ExportAssets = [] → tr = [Event.progress 100 true]) := by
  obtain ⟨s, h1, _, h3, _⟩ := parallelTask_total
    ⟨ExportAssets, rpakBody Combine ExportPath Assets, StatusCallback⟩ n fuel sched hKn hfuel
  have hmem : ∀ d, d ∈ rpakDirectories Combine ExportPath fs ↔ d ∈ fs ∨
      d = Combine ExportPath "images" ∨
      d = Combine ExportPath "materials" ∨ d = Combine ExportPath "models" ∨
      d = Combine ExportPath "animations" ∨ d = Combine ExportPath "subtitles" ∨
      d = Combine ExportPath "datatables" := by
    intro d
    simp only [rpakDirectories, mem_CreateDirectory]
    tauto
  refine ⟨_, _, rpak_eq _ _ _ _ _ _ _ _ fs _ h1, hmem, ?_, ?_⟩
  · have hid : ∀ (D : List String), Combine ExportPath "images" ∈ D →
        Combine ExportPath "materials" ∈ D → Combine ExportPath "models" ∈ D →
        Combine ExportPath "animations" ∈ D → Combine ExportPath "subtitles" ∈ D →
        Combine ExportPath "datatables" ∈ D → rpakDirectories Combine ExportPath D = D := by
      intro D a1 a2 a3 a4 a5 a6
      simp [rpakDirectories, CreateDirectory, a1, a2, a3, a4, a5, a6]
    exact hid _ ((hmem _).2 (by tauto)) ((hmem _).2 (by tauto)) ((hmem _).2 (by tauto))
      ((hmem _).2 (by tauto)) ((hmem _).2 (by tauto)) ((hmem _).2 (by tauto))
  · intro hK
    have := (h3.idle hK).1
    simp only [] at this
    rw [this]
    rfl

/-- C8 amended, at the sample batch. -/
theorem directories_created_witness :
    (sampleBatch.length + 2 < 2 ^ 32 ∧ 5 * sampleBatch.length + 8 * 2 ≤ 36) ∧
    ∃ dirs tr,
      ExportRpakAssets sampleCombine "out" sampleAssets sampleBatch neverCancel 2 36
        alternate ["out/models"] = some (dirs, tr) ∧
      (∀ d, d ∈ dirs ↔ d ∈ ["out/models"] ∨ d = sampleCombine "out" "images" ∨
        d = sampleCombine "out" "materials" ∨ d = sampleCombine "out" "models" ∨
        d = sampleCombine "out" "animations" ∨ d = sampleCombine "out" "subtitles" ∨
        d = sampleCombine "out" "datatables") ∧
      rpakDirectories sampleCombine "out" dirs = dirs ∧
      (sampleBatch = [] → tr = [Event.progress 100 true]) :=
  ⟨by decide, directories_created sampleCombine "out" sampleAssets sampleBatch neverCancel
    2 36 alternate ["out/models"] (by decide) (by decide)⟩

/-! ## Configuration fallback -/

theorem has_remove (c : Settings) (ty : SettingType) (key : String) :
    (c.Remove ty key).Has ty key = false := by
  simp only [Settings.Has, Settings.Remove, List.any_eq_false, List.mem_filter]
  intro e he
  have := he.2
  simp only [Bool.not_eq_eq_eq_not, Bool.not_true, decide_eq_false_iff_not] at this
  simpa using this

theorem has_setIfAbsent (c : Settings) (ty : SettingType) (key key' : String)
    (v : SettingValue) (hne : key' ≠ key) :
    (setIfAbsent c key' v).Has ty key = c.Has ty key := by
  unfold setIfAbsent
  split
  · rename_i hh
    simp only [Bool.not_eq_eq_eq_not, Bool.not_true] at hh
    have hs : Settings.Set c key' v = c ++ [(key', v)] := by
      simp [Settings.Set, hh]
    rw [hs]
    simp [Settings.Has, List.any_append, hne]
  · rfl

theorem getString_setIfAbsent (c : Settings) (key key' : String) (v : SettingValue)
    (hne : key' ≠ key) :
    (setIfAbsent c key' v).GetString key = c.GetString key := by
  unfold setIfAbsent
  split
  · rename_i hh
    simp only [Bool.not_eq_eq_eq_not, Bool.not_true] at hh
    have hs : Settings.Set c key' v = c ++ [(key', v)] := by
      simp [Settings.Set, hh]
    rw [hs]
    simp only [Settings.GetString]
    rw [List.find?_append]
    cases hf : List.find? (fun e => decide (e.1 = key ∧ e.2.type = SettingType.String)) c with
    | none => simp [hne]
    | some x => simp
  · rfl

/-- The nine defaults of lines 44-62 leave the `ExportDirectory` key alone. -/
theorem defaults_keep (c : Settings) (f : Formats) :
    let c' := setIfAbsent (setIfAbsent (setIfAbsent (setIfAbsent (setIfAbsent (setIfAbsent
      (setIfAbsent (setIfAbsent (setIfAbsent c
        "ModelFormat" (SettingValue.Integer f.SEModel))
        "AnimFormat" (SettingValue.Integer f.SEAnim))
        "ImageFormat" (SettingValue.Integer f.Dds))
        "LoadModels" (SettingValue.Boolean true))
        "LoadAnimations" (SettingValue.Boolean true))
        "LoadImages" (SettingValue.Boolean true))
        "LoadMaterials" (SettingValue.Boolean true))
        "LoadUIImages" (SettingValue.Boolean true))
        "LoadDataTables" (SettingValue.Boolean true)
    c'.Has SettingType.String "ExportDirectory" = c.Has SettingType.String "ExportDirectory" ∧
      c'.GetString "ExportDirectory" = c.GetString "ExportDirectory" := by
  intro c'
  constructor
  · simp only [c']
    repeat rw [has_setIfAbsent _ _ _ _ _ (by decide)]
  · simp only [c']
    repeat rw [getString_setIfAbsent _ _ _ _ (by decide)]

/-- C9. `InitializeExporter`: when the configuration (as loaded from `Legion.cfg`, if that
file exists) holds an `ExportDirectory` that does not exist, the export path is
`<ApplicationPath>/exported_files` and the saved configuration, which is also the one kept in
memory, no longer has the key; when the directory exists, the export path is that directory
and the saved configuration still holds the key with the same value; when there is no
`ExportDirectory` key, the export path is the same default. `SaveConfigToDisk`: the same two
cases for a configuration that holds the key; in the second the configuration is saved
unchanged. -/
theorem export_directory_fallback (h : Host) (f : Formats) (m : Manager) :
    (Settings.Has (loadedConfig h m) SettingType.String "ExportDirectory" = true →
      h.DirectoryExists (Settings.GetString (loadedConfig h m) "ExportDirectory") = false →
      (InitializeExporter h f m).1.ExportPath =
          h.Combine h.GetApplicationPath "exported_files" ∧
        Settings.Has (InitializeExporter h f m).2.2 SettingType.String "ExportDirectory" =
          false ∧
        (InitializeExporter h f m).1.Config = (InitializeExporter h f m).2.2) ∧
    (Settings.Has (loadedConfig h m) SettingType.String "ExportDirectory" = true →
      h.DirectoryExists (Settings.GetString (loadedConfig h m) "ExportDirectory") = true →
      (InitializeExporter h f m).1.ExportPath =
          Settings.GetString (loadedConfig h m) "ExportDirectory" ∧
        Settings.Has (InitializeExporter h f m).2.2 SettingType.String "ExportDirectory" =
          true ∧
        Settings.GetString (InitializeExporter h f m).2.2 "ExportDirectory" =
          Settings.GetString (loadedConfig h m) "ExportDirectory") ∧
    (Settings.Has (loadedConfig h m) SettingType.String "ExportDirectory" = false →
      (InitializeExporter h f m).1.ExportPath =
        h.Combine h.GetApplicationPath "exported_files") ∧
    (Settings.Has m.Config SettingType.String "ExportDirectory" = true →
      h.DirectoryExists (Settings.GetString m.Config "ExportDirectory") = false →
      (SaveConfigToDisk h m).1.ExportPath = h.Combine m.ApplicationPath "exported_files" ∧
        Settings.Has (SaveConfigToDisk h m).2.2 SettingType.String "ExportDirectory" =
          false ∧
        (SaveConfigToDisk h m).1.Config = (SaveConfigToDisk h m).2.2) ∧
    (Settings.Has m.Config SettingType.String "ExportDirectory" = true →
      h.DirectoryExists (Settings.GetString m.Config "ExportDirectory") = true →
      (SaveConfigToDisk h m).1.ExportPath = Settings.GetString m.Config "ExportDirectory" ∧
        (SaveConfigToDisk h m).2.2 = m.Config ∧
        (SaveConfigToDisk h m).1.Config = m.Config) := by
  refine ⟨?_, ?_, ?_, ?_, ?_⟩
  · intro hh hd
    have hk := defaults_keep (Settings.Remove (loadedConfig h m) SettingType.String
      "ExportDirectory") f
    simp only [InitializeExporter, hh, resolveExportPath, hd, Bool.not_true,
      Bool.false_eq_true, if_false]
    exact ⟨trivial, by rw [hk.1, has_remove], trivial⟩
  · intro hh hd
    have hk := defaults_keep (loadedConfig h m) f
    simp only [InitializeExporter, hh, resolveExportPath, hd, Bool.not_true,
      Bool.false_eq_true, if_false, if_true]
    exact ⟨trivial, by rw [hk.1, hh], hk.2⟩
  · intro hh
    simp only [InitializeExporter, hh, Bool.not_false, if_true]
  · intro hh hd
    simp only [SaveConfigToDisk, resolveExportPath, hd, Bool.false_eq_true, if_false]
    exact ⟨trivial, has_remove _ _ _, trivial⟩
  · intro hh hd
    simp only [SaveConfigToDisk, resolveExportPath, hd, if_true]
    exact ⟨trivial, trivial, trivial⟩

/-- C9 on a sample machine: the configured directory `e:/gone` does not exist, so both
functions fall back to `app/exported_files` and save a configuration without the key. -/
theorem export_directory_fallback_witness :
    (InitializeExporter sampleHost sampleFormats staleManager).1.ExportPath =
        "app/exported_files" ∧
      Settings.Has (InitializeExporter sampleHost sampleFormats staleManager).2.2
        SettingType.String "ExportDirectory" = false ∧
      (SaveConfigToDisk sampleHost staleManager).1.ExportPath = "app/exported_files" ∧
      (SaveConfigToDisk sampleHost staleManager).2.2 =
        [("ModelFormat", SettingValue.Integer 3)] := by
  have h := export_directory_fallback sampleHost sampleFormats staleManager
  have h1 := h.1 (by decide) (by decide)
  have h4 := h.2.2.2.1 (by decide) (by decide)
  exact ⟨h1.1, h1.2.1, h4.1, by decide⟩

/-! ## The manifest is the sorted list of names -/

theorem compareUnits_swap : ∀ a b : List Char, compareUnits b a = - compareUnits a b
  | [], [] => by simp [compareUnits]
  | [], _ :: _ => by simp [compareUnits]
  | _ :: _, [] => by simp [compareUnits]
  | a :: as, b :: bs => by
    have ih := compareUnits_swap as bs
    simp only [compareUnits]
    rcases lt_trichotomy a b with h | h | h
    · simp [h, not_lt_of_lt h]
    · subst h
      simp [ih]
    · simp [h, not_lt_of_lt h]

theorem compareUnits_eq : ∀ a b : List Char, compareUnits a b = 0 → a = b
  | [], [], _ => rfl
  | [], _ :: _, h => by simp [compareUnits] at h
  | _ :: _, [], h => by simp [compareUnits] at h
  | a :: as, b :: bs, h => by
    simp only [compareUnits] at h
    rcases lt_trichotomy a b with h1 | h1 | h1
    · simp [h1] at h
    · subst h1
      simp at h
      rw [compareUnits_eq as bs h]
    · simp [h1, not_lt_of_lt h1] at h

theorem compareUnits_trans : ∀ a b c : List Char,
    compareUnits a b ≤ 0 → compareUnits b c ≤ 0 → compareUnits a c ≤ 0
  | [], _, [], _, _ => by simp [compareUnits]
  | [], _, _ :: _, _, _ => by simp [compareUnits]
  | _ :: _, [], _, h, _ => by simp [compareUnits] at h
  | _ :: _, _ :: _, [], _, h => by simp [compareUnits] at h
  | a :: as, b :: bs, c :: cs, h1, h2 => by
    have ih := compareUnits_trans as bs cs
    simp only [compareUnits] at h1 h2 ⊢
    rcases lt_trichotomy a b with hab | hab | hab
    · rcases lt_trichotomy b c with hbc | hbc | hbc
      · simp [lt_trans hab hbc]
      · subst hbc
        simp [hab]
      · simp [hbc, not_lt_of_lt hbc] at h2
    · subst hab
      rcases lt_trichotomy a c with hbc | hbc | hbc
      · simp [hbc]
      · subst hbc
        simp at h1 h2 ⊢
        exact ih h1 h2
      · simp [hbc, not_lt_of_lt hbc] at h2
    · simp [hab, not_lt_of_lt hab] at h1

theorem perm_insertSorted (less : String → String → Bool) (x : String) :
    ∀ l : List String, (insertSorted less x l).Perm (x :: l)
  | [] => List.Perm.refl _
  | y :: ys => by
    unfold insertSorted
    split
    · exact List.Perm.refl _
    · exact ((perm_insertSorted less x ys).cons y).trans (List.Perm.swap x y ys)

theorem perm_SortBy (less : String → String → Bool) : ∀ l : List String, (SortBy less l).Perm l
  | [] => List.Perm.refl _
  | x :: xs => by
    have ih := perm_SortBy less xs
    simp only [SortBy, List.foldr_cons] at ih ⊢
    exact (perm_insertSorted less x _).trans (ih.cons x)

theorem sorted_insertSorted (x : String) :
    ∀ l : List String, l.Pairwise (fun a b => Compare a b ≤ 0) →
      (insertSorted (fun lhs rhs => decide (Compare lhs rhs < 0)) x l).Pairwise
        (fun a b => Compare a b ≤ 0)
  | [], _ => by simp [insertSorted]
  | y :: ys, h => by
    unfold insertSorted
    have hy := List.pairwise_cons.1 h
    split
    · rename_i hlt
      simp only [decide_eq_true_eq] at hlt
      refine List.pairwise_cons.2 ⟨?_, h⟩
      intro z hz
      rcases List.mem_cons.1 hz with hz | hz
      · rw [hz]
        omega
      · exact compareUnits_trans _ _ _ (le_of_lt hlt) (hy.1 z hz)
    · rename_i hlt
      simp only [decide_eq_true_eq, not_lt] at hlt
      refine List.pairwise_cons.2 ⟨?_, sorted_insertSorted x ys hy.2⟩
      intro z hz
      rcases List.mem_cons.1 ((perm_insertSorted _ x ys).mem_iff.1 hz) with hz | hz
      · rw [hz]
        have := compareUnits_swap x.data y.data
        unfold Compare at hlt ⊢
        omega
      · exact hy.1 z hz

theorem sorted_SortBy : ∀ l : List String,
    (SortBy (fun lhs rhs => decide (Compare lhs rhs < 0)) l).Pairwise
      (fun a b => Compare a b ≤ 0)
  | [] => by simp [SortBy]
  | x :: xs => by
    have ih := sorted_SortBy xs
    simp only [SortBy, List.foldr_cons] at ih ⊢
    exact sorted_insertSorted x _ ih

theorem compare_antisymm (a b : String) (h1 : Compare a b ≤ 0) (h2 : Compare b a ≤ 0) :
    a = b := by
  unfold Compare at h1 h2
  have hs := compareUnits_swap a.data b.data
  have h0 : compareUnits a.data b.data = 0 := by omega
  have := compareUnits_eq _ _ h0
  exact String.ext this

/-- Two lists in non-decreasing `Compare` order with the same elements are equal. -/
theorem sorted_unique : ∀ l1 l2 : List String, l1.Perm l2 →
    l1.Pairwise (fun a b => Compare a b ≤ 0) → l2.Pairwise (fun a b => Compare a b ≤ 0) →
    l1 = l2 := by
  intro l1 l2 hp h1 h2
  haveI : IsAntisymm String (fun a b => Compare a b ≤ 0) := ⟨compare_antisymm⟩
  exact List.eq_of_perm_of_sorted hp h1 h2

/-- C7. For every asset list the lines that `ExportRpakAssetList` writes are a permutation of
the assets' names (nothing dropped, nothing added) in non-decreasing order under the ordinal
comparison `Compare`, and two asset lists that are permutations of each other give the same
file with the same lines. -/
theorem manifest_sorted_permutation (Combine : String → String → String)
    (ExportPath : String) (fs : List String) (RpakName : String)
    (AssetList : List ApexAsset) :
    (ExportRpakAssetList Combine ExportPath fs AssetList RpakName).2.2.Perm
        (AssetList.map (fun Asset => Asset.Name)) ∧
      (ExportRpakAssetList Combine ExportPath fs AssetList RpakName).2.2.Pairwise
        (fun a b => Compare a b ≤ 0) ∧
      ∀ other : List ApexAsset, AssetList.Perm other →
        ExportRpakAssetList Combine ExportPath fs other RpakName =
          ExportRpakAssetList Combine ExportPath fs AssetList RpakName := by
  refine ⟨perm_SortBy _ _, sorted_SortBy _, ?_⟩
  intro other hp
  have : manifestLines other = manifestLines AssetList := by
    apply sorted_unique _ _ _ (sorted_SortBy _) (sorted_SortBy _)
    exact (perm_SortBy _ _).trans (((hp.map _).symm).trans (perm_SortBy _ _).symm)
  simp only [ExportRpakAssetList, this]

/-- C7 on three names: upper case sorts before lower case in the ordinal order, and the
order of the input does not matter. -/
theorem manifest_sorted_permutation_witness :
    (ExportRpakAssetList sampleCombine "out" [] [⟨"mdl/b"⟩, ⟨"Tex"⟩, ⟨"mdl/a"⟩] "common").2 =
        ("out/lists/common.txt", ["Tex", "mdl/a", "mdl/b"]) ∧
      ExportRpakAssetList sampleCombine "out" [] [⟨"mdl/a"⟩, ⟨"mdl/b"⟩, ⟨"Tex"⟩] "common" =
        ExportRpakAssetList sampleCombine "out" [] [⟨"mdl/b"⟩, ⟨"Tex"⟩, ⟨"mdl/a"⟩] "common" :=
  ⟨by decide,
    (manifest_sorted_permutation sampleCombine "out" [] "common"
      [⟨"mdl/b"⟩, ⟨"Tex"⟩, ⟨"mdl/a"⟩]).2.2 [⟨"mdl/a"⟩, ⟨"mdl/b"⟩, ⟨"Tex"⟩] (by decide)⟩

/-! ## What does hold of the progress reports -/

/-- For every batch, callback, worker count and schedule, the progress reports that the
workers of `ExportRpakAssets` and `ExportMilesAssets` deliver (those before the final one)
rise strictly, and each of them is positive and carries `final = false`. -/
theorem progress_reports_rise (Combine : String → String → String)
    (ExportPath : String) (Assets : Nat → RpakAssetType) (Names : Nat → String)
    (ExportAssets : List ExportAsset) (StatusCallback : List Event → Nat → Bool)
    (n fuel : Nat) (sched : Nat → Nat) (fs : List String)
    (hKn : ExportAssets.length + n < 2 ^ 32)
    (hfuel : 5 * ExportAssets.length + 8 * n ≤ fuel) :
    (∃ dirs tr,
      ExportRpakAssets Combine ExportPath Assets ExportAssets StatusCallback n fuel sched fs =
        some (dirs, tr ++ [Event.progress 100 true]) ∧
      ((progressCallbacks tr).map Prod.fst).Pairwise (fun a b => a < b) ∧
      ∀ x ∈ progressCallbacks tr, 0 < x.1 ∧ x.2 = false) ∧
    (∃ dirs tr,
      ExportMilesAssets Combine ExportPath Names ExportAssets StatusCallback n fuel sched fs =
        some (dirs, tr ++ [Event.progress 100 true]) ∧
      ((progressCallbacks tr).map Prod.fst).Pairwise (fun a b => a < b) ∧
      ∀ x ∈ progressCallbacks tr, 0 < x.1 ∧ x.2 = false) := by
  constructor
  · obtain ⟨s, h1, _, h3, _⟩ := parallelTask_total
      ⟨ExportAssets, rpakBody Combine ExportPath Assets, StatusCallback⟩ n fuel sched hKn hfuel
    refine ⟨_, s.trace, rpak_eq _ _ _ _ _ _ _ _ fs _ h1, h3.reports.rising, ?_⟩
    intro x hx
    exact ⟨(h3.reports.bounded x.1 (List.mem_map.2 ⟨x, hx, rfl⟩)).1,
      h3.payload.notFinal x hx⟩
  · obtain ⟨s, h1, _, h3, _⟩ := parallelTask_total
      ⟨ExportAssets, milesBody Combine ExportPath Names, StatusCallback⟩ n fuel sched hKn hfuel
    refine ⟨_, s.trace, miles_eq _ _ _ _ _ _ _ _ fs _ h1, h3.reports.rising, ?_⟩
    intro x hx
    exact ⟨(h3.reports.bounded x.1 (List.mem_map.2 ⟨x, hx, rfl⟩)).1,
      h3.payload.notFinal x hx⟩

/-- The rising reports at the sample batch. -/
theorem progress_reports_rise_witness :
    (sampleBatch.length + 2 < 2 ^ 32 ∧ 5 * sampleBatch.length + 8 * 2 ≤ 36) ∧
    (∃ dirs tr,
      ExportRpakAssets sampleCombine "out" sampleAssets sampleBatch (cancelAt 10) 2 36
        alternate [] = some (dirs, tr ++ [Event.progress 100 true]) ∧
      ((progressCallbacks tr).map Prod.fst).Pairwise (fun a b => a < b) ∧
      ∀ x ∈ progressCallbacks tr, 0 < x.1 ∧ x.2 = false) ∧
    (∃ dirs tr,
      ExportMilesAssets sampleCombine "out" sampleNames sampleBatch (cancelAt 10) 2 36
        alternate [] = some (dirs, tr ++ [Event.progress 100 true]) ∧
      ((progressCallbacks tr).map Prod.fst).Pairwise (fun a b => a < b) ∧
      ∀ x ∈ progressCallbacks tr, 0 < x.1 ∧ x.2 = false) :=
  ⟨by decide, progress_reports_rise sampleCombine "out" sampleAssets sampleNames
    sampleBatch (cancelAt 10) 2 36 alternate [] (by decide) (by decide)⟩

/-- For a batch of at most 2^24 = 16777216 items, every callback, worker count and schedule,
the percentages that `ExportRpakAssets` delivers, the final 100 included, rise strictly, and
every report before the final one lies strictly between 0 and 100. -/
theorem progress_strictly_increasing_up_to_2_24 (Combine : String → String → String)
    (ExportPath : String) (Assets : Nat → RpakAssetType)
    (ExportAssets : List ExportAsset) (StatusCallback : List Event → Nat → Bool)
    (n fuel : Nat) (sched : Nat → Nat) (fs : List String)
    (hK : ExportAssets.length ≤ 2 ^ 24)
    (hKn : ExportAssets.length + n < 2 ^ 32)
    (hfuel : 5 * ExportAssets.length + 8 * n ≤ fuel) :
    ∃ dirs tr,
      ExportRpakAssets Combine ExportPath Assets ExportAssets StatusCallback n fuel sched fs =
        some (dirs, tr ++ [Event.progress 100 true]) ∧
      ((progressCallbacks (tr ++ [Event.progress 100 true])).map Prod.fst).Pairwise
        (fun a b => a < b) ∧
      ∀ x ∈ progressCallbacks tr, 0 < x.1 ∧ x.1 < 100 ∧ x.2 = false := by
  obtain ⟨s, h1, _, h3, _⟩ := parallelTask_total
    ⟨ExportAssets, rpakBody Combine ExportPath Assets, StatusCallback⟩ n fuel sched hKn hfuel
  have hcap : s.CurrentProgress ≤ 99 := by
    apply h3.reports.capped 99
    intro i hi
    have := newProgress_lt_100 hi hK
    exact Nat.le_of_lt_succ this
  have hb : ∀ x ∈ progressCallbacks s.trace, 0 < x.1 ∧ x.1 < 100 ∧ x.2 = false := by
    intro x hx
    have := h3.reports.bounded x.1 (List.mem_map.2 ⟨x, hx, rfl⟩)
    exact ⟨this.1, by omega, h3.payload.notFinal x hx⟩
  refine ⟨_, s.trace, rpak_eq _ _ _ _ _ _ _ _ fs _ h1, ?_, hb⟩
  simp only [progressCallbacks, List.filterMap_append, List.map_append, List.pairwise_append]
  refine ⟨h3.reports.rising, by simp [Event.report], ?_⟩
  intro a ha b hb'
  simp [Event.report] at hb'
  obtain ⟨x, hx, rfl⟩ := List.mem_map.1 ha
  have := (hb x hx).2.1
  omega

/-- The strictly rising percentages at the sample batch. -/
theorem progress_strictly_increasing_up_to_2_24_witness :
    (sampleBatch.length ≤ 2 ^ 24 ∧ sampleBatch.length + 2 < 2 ^ 32 ∧
      5 * sampleBatch.length + 8 * 2 ≤ 36) ∧
    ∃ dirs tr,
      ExportRpakAssets sampleCombine "out" sampleAssets sampleBatch neverCancel 2 36
        alternate [] = some (dirs, tr ++ [Event.progress 100 true]) ∧
      ((progressCallbacks (tr ++ [Event.progress 100 true])).map Prod.fst).Pairwise
        (fun a b => a < b) ∧
      ∀ x ∈ progressCallbacks tr, 0 < x.1 ∧ x.1 < 100 ∧ x.2 = false :=
  ⟨by decide, progress_strictly_increasing_up_to_2_24 sampleCombine "out" sampleAssets
    sampleBatch neverCancel 2 36 alternate [] (by decide) (by decide) (by decide)⟩

end ExportManager

namespace MdlLib

/-! ## Decoding beyond the last authored frame -/

theorem rawAt_isSome : ∀ (track : Track) (k : Nat), k < frames track →
    (rawAt track k).isSome = true
  | [], k, h => by simp [frames] at h
  | sp :: rest, k, h => by
    unfold rawAt
    split
    · rfl
    · rename_i hk
      apply rawAt_isSome rest (k - sp.count)
      simp [frames] at h ⊢
      omega

theorem clampFrame_beyond (track : Track) (frame : Nat) (h : frames track - 1 ≤ frame) :
    clampFrame track frame = frames track - 1 := by
  unfold clampFrame
  omega

theorem clampFrame_last (track : Track) :
    clampFrame track (frames track - 1) = frames track - 1 := by
  unfold clampFrame
  omega

theorem extract_beyond {F V E Q : Type} (o : Ops F V E Q) (track : Track) (scale : F)
    (frame : Nat) (h : frames track - 1 ≤ frame) :
    ExtractAnimValue o frame track scale = ExtractAnimValue o (frames track - 1) track scale := by
  unfold ExtractAnimValue
  rw [clampFrame_beyond track frame h, clampFrame_last]

theorem decodeAxis_beyond {F V E Q : Type} (o : Ops F V E Q) (track : Track) (scale s : F)
    (frame : Nat) (h : frames track - 1 ≤ frame) :
    decodeAxis o frame s track scale = decodeAxis o (frames track - 1) s track scale := by
  unfold decodeAxis ExtractAnimValue2
  rw [extract_beyond o track scale frame h, extract_beyond o track scale (frame + 1) (by omega),
    extract_beyond o track scale (frames track - 1 + 1) (by omega)]

theorem decodeAxes_beyond {F V E Q : Type} (o : Ops F V E Q) (tracks : Track × Track × Track)
    (scale : F × F × F) (s : F) (n frame : Nat)
    (hn : frames tracks.1 = n ∧ frames tracks.2.1 = n ∧ frames tracks.2.2 = n)
    (h : n - 1 ≤ frame) :
    decodeAxes o frame s tracks scale = decodeAxes o (n - 1) s tracks scale := by
  obtain ⟨h1, h2, h3⟩ := hn
  unfold decodeAxes
  have e1 := decodeAxis_beyond o tracks.1 scale.1 s frame (by omega)
  have e2 := decodeAxis_beyond o tracks.2.1 scale.2.1 s frame (by omega)
  have e3 := decodeAxis_beyond o tracks.2.2 scale.2.2 s frame (by omega)
  rw [h1] at e1
  rw [h2] at e2
  rw [h3] at e3
  rw [e1, e2, e3]

/-- C10. For every compressed track, scale and frame index at or beyond the last authored
frame, `ExtractAnimValue` (both forms) returns what it returns at the last authored frame,
and for a track with at least one frame that is a value, not a failure. Through it, for a
bone whose tracks all cover the same `n` frames, `CalcBonePosition`, `CalcBoneQuaternion` and
`CalcBoneScale` at a frame beyond the range return what they return at frame `n - 1`. -/
theorem decoder_boundary_clamp {F V E Q : Type} (o : Ops F V E Q) (track : Track) (scale : F)
    (frame : Nat) (h : frames track - 1 ≤ frame) :
    ExtractAnimValue o frame track scale = ExtractAnimValue o (frames track - 1) track scale ∧
    ExtractAnimValue2 o frame track scale =
      ExtractAnimValue2 o (frames track - 1) track scale ∧
    (0 < frames track → (ExtractAnimValue o frame track scale).isSome = true ∧
      (ExtractAnimValue2 o frame track scale).isSome = true) ∧
    ∀ (panim : RleAnim) (n : Nat) (s : F) (basePos baseScale : V) (baseBoneScale : F)
      (baseQuat baseAlignment : Q) (baseRot : E) (baseRotScale baseScaleScale : F × F × F)
      (iBaseFlags : Nat), Covers panim n → n - 1 ≤ frame →
      CalcBonePosition o frame s basePos baseBoneScale panim =
        CalcBonePosition o (n - 1) s basePos baseBoneScale panim ∧
      CalcBoneQuaternion o frame s baseQuat baseRot baseRotScale iBaseFlags baseAlignment
          panim =
        CalcBoneQuaternion o (n - 1) s baseQuat baseRot baseRotScale iBaseFlags baseAlignment
          panim ∧
      CalcBoneScale o frame s baseScale baseScaleScale panim =
        CalcBoneScale o (n - 1) s baseScale baseScaleScale panim := by
  have hsome : ∀ fr, 0 < frames track → (ExtractAnimValue o fr track scale).isSome = true := by
    intro fr hpos
    unfold ExtractAnimValue
    rw [Option.isSome_map']
    apply rawAt_isSome
    unfold clampFrame
    omega
  refine ⟨extract_beyond o track scale frame h, ?_, ?_, ?_⟩
  · unfold ExtractAnimValue2
    rw [extract_beyond o track scale frame h,
      extract_beyond o track scale (frame + 1) (by omega),
      extract_beyond o track scale (frames track - 1 + 1) (by omega)]
  · intro hpos
    refine ⟨hsome frame hpos, ?_⟩
    unfold ExtractAnimValue2
    have a1 := hsome frame hpos
    have a2 := hsome (frame + 1) hpos
    cases h1 : ExtractAnimValue o frame track scale with
    | none => rw [h1] at a1; cases a1
    | some v1 =>
      cases h2 : ExtractAnimValue o (frame + 1) track scale with
      | none => rw [h2] at a2; cases a2
      | some v2 => rfl
  · intro panim n s basePos baseScale baseBoneScale baseQuat baseAlignment baseRot
      baseRotScale baseScaleScale iBaseFlags hcov hn
    refine ⟨?_, ?_, ?_⟩
    · unfold CalcBonePosition
      cases hp : panim.pos with
      | none => rfl
      | some tracks =>
        simp only []
        rw [decodeAxes_beyond o tracks _ s n frame (hcov tracks (Or.inl hp)) hn]
    · unfold CalcBoneQuaternion
      cases hp : panim.rot with
      | none => rfl
      | some tracks =>
        simp only []
        rw [decodeAxes_beyond o tracks _ s n frame (hcov tracks (Or.inr (Or.inl hp))) hn]
    · unfold CalcBoneScale
      cases hp : panim.scale with
      | none => rfl
      | some tracks =>
        simp only []
        rw [decodeAxes_beyond o tracks _ s n frame (hcov tracks (Or.inr (Or.inr hp))) hn]

/-- C10 on a track of five frames: frame 9 decodes like frame 4, the last one. -/
theorem decoder_boundary_clamp_witness :
    frames sampleTrack - 1 ≤ 9 ∧
    ExtractAnimValue sampleOps 9 sampleTrack 2 = some 14 ∧
    ExtractAnimValue sampleOps 9 sampleTrack 2 =
      ExtractAnimValue sampleOps (frames sampleTrack - 1) sampleTrack 2 ∧
    CalcBonePosition sampleOps 9 0 (10, 20, 30) 2 sampleAnim =
      CalcBonePosition sampleOps (5 - 1) 0 (10, 20, 30) 2 sampleAnim :=
  ⟨by decide, by decide,
    (decoder_boundary_clamp sampleOps sampleTrack 2 9 (by decide)).1,
    ((decoder_boundary_clamp sampleOps sampleTrack 2 9 (by decide)).2.2.2 sampleAnim 5 0
      (10, 20, 30) (1, 1, 1) 2 (0, 0, 0) (0, 0, 0) () (1, 1, 1) (1, 1, 1) 0
      (by
        intro tracks ht
        rcases ht with ht | ht | ht
        · cases ht; decide
        · cases ht
        · cases ht; decide)
      (by decide)).1⟩

end MdlLib
